import Mathlib

/-!
# Verification of the ECEE-2560 project kernels

This file gives a shallow embedding, in Lean 4, of the algorithmic kernels of
the `blueschu/ECEE-2560-Projects` repository, together with proofs and
refutations of the specification's claims about them.

The embedding conventions:

* C++ iterators into a random-access sequence become a `List` together with
  natural-number indices; the distance `end - start` is passed explicitly where
  a recursion is driven by it.
* Machine-unsigned arithmetic is modelled on `Nat` with explicit `% 2 ^ 32`
  (resp. `2 ^ 64`) wherever wrap-around matters.
* Fallible operations (bounds-checked matrix accesses that throw
  `MatrixIndexError`, dereferences of out-of-range iterators, which are
  undefined behaviour in the source) are modelled in `Except` / `Option`:
  an `Except.error` marks the point where the C++ program throws or leaves
  the defined fragment of the language.
* Template parameters (the Sudoku block dimension `N`, node/weight types of
  the graph) become ordinary parameters of the Lean definitions.
-/

set_option maxRecDepth 4096

namespace Eece2560

/-! ## Project 3: `algo_util.h`

`eece2560::binary_search` searches `[start, end)` recursively.  We model the
iterator pair by the start index together with the distance `n = end - start`;
element access `*it` is the fallible `List.get?`, so that the out-of-range
dereference performed by the C++ base case on an empty range surfaces as
`Except.error`. -/

/-- Shallow embedding of `eece2560::binary_search` (src/8-schcre-3/algo_util.h,
lines 136-158).  `start` is the index of the first element of the searched
range and `n` the distance `end - start`.  The C++ base case `start == end`
dereferences `*start` unconditionally; we model that dereference by `List.get?`
and signal the out-of-range read (undefined behaviour in C++) with
`Except.error ()`. -/
def binarySearchGo (comp : α → α → Bool) (l : List α) (needle : α) :
    (start : ℕ) → (n : ℕ) → Except Unit (Option ℕ)
  | start, 0 =>
    -- C++: `if (start == end) { if (comp(*start, needle) || comp(needle, *start)) ... }`
    match l.get? start with
    | none => .error ()
    | some a => if comp a needle || comp needle a then .ok none else .ok (some start)
  | start, n + 1 =>
    -- C++: `mid = start + (end - start) / 2`
    let mid := start + (n + 1) / 2
    match l.get? mid with
    | none => .error ()
    | some m =>
      if comp m needle then
        -- recurse on `[mid + 1, end)`
        binarySearchGo comp l needle (mid + 1) (n - (n + 1) / 2)
      else
        -- recurse on `[start, mid)`
        binarySearchGo comp l needle start ((n + 1) / 2)
  termination_by _start n => n
  decreasing_by
  · simp only [Nat.sub_lt_iff_lt_add (Nat.le_of_lt_succ (Nat.div_lt_self (Nat.succ_pos n) one_lt_two))]
    omega
  · exact Nat.div_lt_self (Nat.succ_pos n) one_lt_two

/-- `eece2560::binary_search` over the full range of a list, as used by
`Dictionary::contains` (src/8-schcre-3/dictionary.cpp, lines 60-64). -/
def binarySearch (comp : α → α → Bool) (l : List α) (needle : α) :
    Except Unit (Option ℕ) :=
  binarySearchGo comp l needle 0 l.length

/-- Shallow embedding of `eece2560::details::min_elem`
(src/8-schcre-3/algo_util.h, lines 37-49): offset (counted from the start of
the scanned range) of the first element such that no later element compares
strictly less than it.  `cur` is the current minimum, `curIdx` its offset. -/
def minElemFrom (comp : α → α → Bool) : α → ℕ → ℕ → List α → ℕ
  | _, curIdx, _, [] => curIdx
  | cur, curIdx, idx, y :: ys =>
    if comp y cur then minElemFrom comp y idx (idx + 1) ys
    else minElemFrom comp cur curIdx (idx + 1) ys

/-- Offset of `min_elem(it, end)` from `it` for a nonempty range `x :: xs`. -/
def minElemIdx (comp : α → α → Bool) (x : α) (xs : List α) : ℕ :=
  minElemFrom comp x 0 1 xs

/-- Shallow embedding of `eece2560::selection_sort`
(src/8-schcre-3/algo_util.h, lines 111-118): repeatedly
`std::iter_swap(it, min_elem(it, end, comp)); ++it`. The swap of the front
element with the minimum at offset `j` is performed on the list, after which
the loop continues on the tail. -/
def selectionSort (comp : α → α → Bool) : List α → List α
  | [] => []
  | x :: xs =>
    let j := minElemIdx comp x xs
    match h : (x :: xs).get? j with
    | none => x :: selectionSort comp xs      -- unreachable: `j < (x :: xs).length`
    | some m =>
      if j = 0 then x :: selectionSort comp xs
      else m :: selectionSort comp (xs.set (j - 1) x)
  termination_by l => l.length
  decreasing_by all_goals simp

/-- Comparator on pairs that orders by the first component only; the second
component is a tag recording the original position, used to observe
(in)stability. -/
def cmpFst (a b : ℕ × ℕ) : Bool := a.1 < b.1

/-- The default comparator `std::less<>` at type `unsigned`/`int`. -/
def natLt (a b : ℕ) : Bool := a < b

/-- C7: on the sorted one-element sequence `[1]`, searching for the needle `2`
(a needle strictly greater than every element, so absent) makes
`eece2560::binary_search` recurse down to the empty subrange `[end, end)` and
dereference the one-past-the-end iterator `*end` — an out-of-range read
(undefined behaviour), modelled here by `Except.error` — instead of returning
"no position" as the claim requires. -/
theorem binarySearch_derefs_end_on_absent_needle :
    binarySearch natLt [1] 2 = .error () := by
  simp [binarySearch, binarySearchGo, natLt]

/-- C8: `eece2560::selection_sort` is not stable.  Sorting the tagged sequence
`[(2,0), (2,1), (1,2)]` by first component swaps the front element `(2,0)` to
the back when the minimum `(1,2)` is selected, so the two equal-keyed elements
`(2,0)` and `(2,1)` come out in the order `(2,1), (2,0)` — the reverse of the
order they had in the input, contradicting both the claim and the function's
own documentation ("This sorting algorithm is stable"). -/
theorem selectionSort_not_stable :
    selectionSort cmpFst [(2, 0), (2, 1), (1, 2)] = [(1, 2), (2, 1), (2, 0)] := by
  rw [selectionSort, selectionSort, selectionSort, selectionSort]
  simp [minElemIdx, minElemFrom, cmpFst]
  rw [selectionSort, selectionSort, selectionSort]
  simp [minElemIdx, minElemFrom, cmpFst]

/-! ## Project 4: `sudoku_board.h`

The Sudoku board `SudokuBoard<N>` with entry type `unsigned int` and the
default `SudokuEntryPolicy`.  The block dimension `N` is a parameter; the board
dimension is `D = N * N` (`k_dim`).  Cell entries are `Nat` (the C++ entry type
is `unsigned int`, so theorems carry `e < 2 ^ 32` hypotheses where the value is
attacker-controlled); the blank sentinel is `0`.  Boards and conflict tables
are total functions, but every access the C++ performs through the
bounds-checked `Matrix::operator[]` is guarded: an out-of-range access is
`Except.error ()`, modelling the thrown `MatrixIndexError`.

We model a single board object.  (The function-local `static` lambdas inside
the `solve_*` member functions capture the first caller's `this`; the claims
quantify over the history of one board instance, which is the configuration in
which those lambdas are well defined.)

The per-row/column/block conflict counters and the per-entry counters are
`unsigned int` in the source (`BoardConflicts::Count`), incremented or
decremented exactly when a table bit flips, with wrapping 32-bit arithmetic:
increments are `(c + 1) % 2 ^ 32` and decrements `(c + (2 ^ 32 - 1)) % 2 ^ 32`
below.  The wrap matters: `clear()` zeroes the conflict tables without
resetting the counters, so long operation histories drift the counters
arbitrarily far from the tables and can wrap them around `2 ^ 32` — which is
exactly what the refutation of claim C1 exploits. -/

namespace Sudoku

/-- `Matrix::Coordinate`: a (row, column) index pair. -/
abbrev Coord := ℕ × ℕ

/-- `details::BoardConflicts::ConflictSource`: one conflict table together
with the cached per-row counts. -/
structure ConflictSource where
  table : ℕ → ℕ → Bool
  counts : ℕ → ℕ

/-- `details::BoardConflicts<k_dim>`: the three conflict sources and the cache
of per-entry counts. -/
structure BoardConflicts where
  rows : ConflictSource
  cols : ConflictSource
  blocks : ConflictSource
  entryCounts : ℕ → ℕ

/-- The member pointer `ConflictSource BoardConflicts::*` used by the source to
abstract over the row/column/block conflict sources. -/
inductive Src
  | rows
  | cols
  | blocks

/-- Dereference a conflict-source member pointer. -/
def BoardConflicts.src (cf : BoardConflicts) : Src → ConflictSource
  | .rows => cf.rows
  | .cols => cf.cols
  | .blocks => cf.blocks

/-- Write through a conflict-source member pointer. -/
def BoardConflicts.withSrc (cf : BoardConflicts) : Src → ConflictSource → BoardConflicts
  | .rows, cs => { cf with rows := cs }
  | .cols, cs => { cf with cols := cs }
  | .blocks, cs => { cf with blocks := cs }

/-- The full board state: the cell entries (`m_board_entries`) and the conflict
tables (`m_conflicts`). -/
structure SudokuState where
  board : ℕ → ℕ → ℕ
  conflicts : BoardConflicts

/-- `SudokuEntryPolicy<unsigned int>::index_of`: `entry - 1` in `unsigned`
arithmetic, so the blank sentinel `0` underflows to `2 ^ 32 - 1`. -/
def entryIndex (e : ℕ) : ℕ := (e + (2 ^ 32 - 1)) % 2 ^ 32

/-- `SudokuBoard::block_index`: `N * (row / N) + col / N`. -/
def blockIndexOf (N : ℕ) (c : Coord) : ℕ := N * (c.1 / N) + c.2 / N

/-- `BoardConflicts::check_source`: bounds-checked read of a conflict bit
(`Matrix<bool, N>::operator[](Coordinate)` throws `MatrixIndexError` out of
range, modelled by `Except.error`). -/
def checkSource (D : ℕ) (cf : BoardConflicts) (so : Src) (si ei : ℕ) :
    Except Unit Bool :=
  if si < D ∧ ei < D then .ok ((cf.src so).table si ei) else .error ()

/-- The unchecked update performed by `BoardConflicts::set_source`: write the
conflict bit, and when it actually flips adjust the per-source count and the
per-entry count by one in the corresponding direction.  The counters are
`unsigned int` (`Count`), so `+= 1` and `-= 1` wrap modulo `2 ^ 32`
(`c - 1 ≡ c + (2 ^ 32 - 1)`, which also covers the underflow at `0`). -/
def setSourceCore (cf : BoardConflicts) (so : Src) (si ei : ℕ)
    (state : Bool) : BoardConflicts :=
  let cs := cf.src so
  let flag := cs.table si ei
  let cs' : ConflictSource :=
    { table := fun a b => if a = si ∧ b = ei then state else cs.table a b
      counts :=
        if flag ≠ state then
          fun i => if i = si then
              (if state then (cs.counts i + 1) % 2 ^ 32
               else (cs.counts i + (2 ^ 32 - 1)) % 2 ^ 32)
            else cs.counts i
        else cs.counts }
  let ec' :=
    if flag ≠ state then
      fun v => if v = ei then
          (if state then (cf.entryCounts v + 1) % 2 ^ 32
           else (cf.entryCounts v + (2 ^ 32 - 1)) % 2 ^ 32)
        else cf.entryCounts v
    else cf.entryCounts
  { cf.withSrc so cs' with entryCounts := ec' }

/-- `BoardConflicts::set_source`: the bounds check of
`Matrix<bool, N>::operator[]` followed by `setSourceCore`. -/
def setSource (D : ℕ) (cf : BoardConflicts) (so : Src) (si ei : ℕ)
    (state : Bool) : Except Unit BoardConflicts :=
  if si < D ∧ ei < D then .ok (setSourceCore cf so si ei state) else .error ()

/-- `SudokuBoard::check_legal_move`: the short-circuit conjunction
`!rows[row][i] && !cols[col][i] && !blocks[block][i]` with bounds-checked
accesses. -/
def checkLegalMove (N : ℕ) (s : SudokuState) (coord : Coord) (e : ℕ) :
    Except Unit Bool :=
  match checkSource (N * N) s.conflicts .rows coord.1 (entryIndex e) with
  | .error u => .error u
  | .ok b1 =>
    if b1 then .ok false
    else
      match checkSource (N * N) s.conflicts .cols coord.2 (entryIndex e) with
      | .error u => .error u
      | .ok b2 =>
        if b2 then .ok false
        else
          match checkSource (N * N) s.conflicts .blocks (blockIndexOf N coord)
              (entryIndex e) with
          | .error u => .error u
          | .ok b3 => .ok (!b3)

/-- `SudokuBoard::set_conflict_state`: set or clear the row, column and block
conflict bits for `e` at `coord` (in that order). -/
def setConflictState (N : ℕ) (cf : BoardConflicts) (coord : Coord) (e : ℕ)
    (state : Bool) : Except Unit BoardConflicts :=
  match setSource (N * N) cf .rows coord.1 (entryIndex e) state with
  | .error u => .error u
  | .ok cf1 =>
    match setSource (N * N) cf1 .cols coord.2 (entryIndex e) state with
    | .error u => .error u
    | .ok cf2 =>
      setSource (N * N) cf2 .blocks (blockIndexOf N coord) (entryIndex e) state

/-- The composite update performed by a successful `set_conflict_state`: the
row, column and block bits for `e` at `coord`, in source order. -/
def setConflictCore (N : ℕ) (cf : BoardConflicts) (coord : Coord) (e : ℕ)
    (state : Bool) : BoardConflicts :=
  let idx := entryIndex e
  setSourceCore
    (setSourceCore (setSourceCore cf .rows coord.1 idx state)
      .cols coord.2 idx state)
    .blocks (blockIndexOf N coord) idx state

/-- `SudokuBoard::set_cell`: check legality, clear the old entry's conflicts if
the cell is occupied, write the new entry, add its conflicts.  Returns the
C++ return value paired with the updated state; on the `false` path the state
is returned unchanged. -/
def setCell (N : ℕ) (s : SudokuState) (coord : Coord) (e : ℕ) :
    Except Unit (Bool × SudokuState) :=
  match checkLegalMove N s coord e with
  | .error u => .error u
  | .ok legal =>
    if !legal then .ok (false, s)
    else
      -- `auto& cell = (*m_board_entries)[coord]` (bounds-checked)
      if coord.1 < N * N ∧ coord.2 < N * N then
        let cell := s.board coord.1 coord.2
        match
          (if cell ≠ 0 then setConflictState N s.conflicts coord cell false
           else .ok s.conflicts) with
        | .error u => .error u
        | .ok cf1 =>
          let board' := fun a b =>
            if a = coord.1 ∧ b = coord.2 then e else s.board a b
          match setConflictState N cf1 coord e true with
          | .error u => .error u
          | .ok cf2 => .ok (true, { board := board', conflicts := cf2 })
      else .error ()

/-- `SudokuBoard::clear_cell`: if the (bounds-checked) cell is occupied, remove
its conflicts and blank it; otherwise no action. -/
def clearCell (N : ℕ) (s : SudokuState) (coord : Coord) :
    Except Unit SudokuState :=
  if coord.1 < N * N ∧ coord.2 < N * N then
    let cell := s.board coord.1 coord.2
    if cell ≠ 0 then
      match setConflictState N s.conflicts coord cell false with
      | .error u => .error u
      | .ok cf1 =>
        .ok { board := fun a b =>
                if a = coord.1 ∧ b = coord.2 then 0 else s.board a b
              conflicts := cf1 }
    else .ok s
  else .error ()

/-- `SudokuBoard::clear`: blank every cell and zero all three conflict
*tables*.  Note that the source does *not* reset the cached counts, so they
are left untouched here as well. -/
def clearAll (s : SudokuState) : SudokuState :=
  { board := fun _ _ => 0
    conflicts :=
      { rows := { table := fun _ _ => false, counts := s.conflicts.rows.counts }
        cols := { table := fun _ _ => false, counts := s.conflicts.cols.counts }
        blocks := { table := fun _ _ => false, counts := s.conflicts.blocks.counts }
        entryCounts := s.conflicts.entryCounts } }

/-- The freshly constructed board: `new Board{}` / `new Conflicts{}`
zero-initialize everything. -/
def initState : SudokuState :=
  { board := fun _ _ => 0
    conflicts :=
      { rows := { table := fun _ _ => false, counts := fun _ => 0 }
        cols := { table := fun _ _ => false, counts := fun _ => 0 }
        blocks := { table := fun _ _ => false, counts := fun _ => 0 }
        entryCounts := fun _ => 0 } }

/-- Board states reachable from a fresh board through the public operations.
`operator>>` is `clear()` followed by a sequence of `set_cell` calls whose
results are ignored, so every parse outcome is covered by the `wipe` and `set`
steps.  The `e < 2 ^ 32` bound on `set` reflects the `unsigned int` entry
type. -/
inductive Reachable (N : ℕ) : SudokuState → Prop
  | init : Reachable N initState
  | set {s c e b s'} : Reachable N s → e < 2 ^ 32 →
      setCell N s c e = .ok (b, s') → Reachable N s'
  | clear {s c s'} : Reachable N s → clearCell N s c = .ok s' → Reachable N s'
  | wipe {s} : Reachable N s → Reachable N (clearAll s)

/-! ### Invariants

`TableWF` is the conflict-table/board consistency invariant (the content of
claims P1/C4) together with the three uniqueness invariants and the value-range
invariant.  No corresponding invariant relates the wrapping cached counters to
the tables: `clear()` zeroes the tables but, in the source, leaves the cached
counts untouched, so the counters drift away from the tables and can wrap
modulo `2 ^ 32` — the basis of the refutation of claim C1 below. -/

/-- A coordinate addressing an actual cell of the `D × D` board. -/
def InRange (N : ℕ) (c : Coord) : Prop := c.1 < N * N ∧ c.2 < N * N

/-- Every non-blank value appears at most once in each row. -/
def RowUnique (N : ℕ) (b : ℕ → ℕ → ℕ) : Prop :=
  ∀ r c₁ c₂, r < N * N → c₁ < N * N → c₂ < N * N →
    b r c₁ ≠ 0 → b r c₁ = b r c₂ → c₁ = c₂

/-- Every non-blank value appears at most once in each column. -/
def ColUnique (N : ℕ) (b : ℕ → ℕ → ℕ) : Prop :=
  ∀ c r₁ r₂, c < N * N → r₁ < N * N → r₂ < N * N →
    b r₁ c ≠ 0 → b r₁ c = b r₂ c → r₁ = r₂

/-- Every non-blank value appears at most once in each `N × N` block. -/
def BlockUnique (N : ℕ) (b : ℕ → ℕ → ℕ) : Prop :=
  ∀ r₁ c₁ r₂ c₂, r₁ < N * N → c₁ < N * N → r₂ < N * N → c₂ < N * N →
    blockIndexOf N (r₁, c₁) = blockIndexOf N (r₂, c₂) →
    b r₁ c₁ ≠ 0 → b r₁ c₁ = b r₂ c₂ → r₁ = r₂ ∧ c₁ = c₂

/-- Every cell is non-blank. -/
def NoBlanks (N : ℕ) (b : ℕ → ℕ → ℕ) : Prop :=
  ∀ r c, r < N * N → c < N * N → b r c ≠ 0

/-- Conflict-table/board consistency: each table bit is set iff the value is
present in the corresponding row/column/block, values are in range, and the
three uniqueness invariants hold. -/
structure TableWF (N : ℕ) (s : SudokuState) : Prop where
  range : ∀ r c, r < N * N → c < N * N → s.board r c ≤ N * N
  rowIff : ∀ r v, r < N * N → v < N * N →
    (s.conflicts.rows.table r v = true ↔ ∃ c, c < N * N ∧ s.board r c = v + 1)
  colIff : ∀ c v, c < N * N → v < N * N →
    (s.conflicts.cols.table c v = true ↔ ∃ r, r < N * N ∧ s.board r c = v + 1)
  blockIff : ∀ bk v, bk < N * N → v < N * N →
    (s.conflicts.blocks.table bk v = true ↔
      ∃ r c, r < N * N ∧ c < N * N ∧ blockIndexOf N (r, c) = bk ∧
        s.board r c = v + 1)
  rowUniq : RowUnique N s.board
  colUniq : ColUnique N s.board
  blockUniq : BlockUnique N s.board

/-- Number of set bits in row `i` of a conflict table. -/
def bitCard (D : ℕ) (t : ℕ → ℕ → Bool) (i : ℕ) : ℕ :=
  ((Finset.range D).filter (fun v => t i v = true)).card

/-- The master invariant carried along `Reachable` (the counters satisfy no
useful invariant, see above). -/
def WF (N : ℕ) (s : SudokuState) : Prop := TableWF N s

/-! ### Elementary facts about the operations -/

theorem entryIndex_of_pos {e : ℕ} (h1 : 1 ≤ e) (h2 : e < 2 ^ 32) :
    entryIndex e = e - 1 := by
  unfold entryIndex
  have he : e + (2 ^ 32 - 1) = (e - 1) + 2 ^ 32 := by omega
  rw [he, Nat.add_mod_right]
  exact Nat.mod_eq_of_lt (by omega)

theorem entryIndex_zero : entryIndex 0 = 2 ^ 32 - 1 := by
  unfold entryIndex
  exact Nat.mod_eq_of_lt (by norm_num)

/-- If the conflict-table column index derived from `e` is within bounds
(for a dimension below `2 ^ 32`), then `e` is an actual value in `[1, D]` and
the index is `e - 1`. -/
theorem entry_of_entryIndex_lt {e D : ℕ} (hD : D < 2 ^ 32) (he : e < 2 ^ 32)
    (h : entryIndex e < D) : 1 ≤ e ∧ e ≤ D ∧ entryIndex e = e - 1 := by
  rcases Nat.eq_zero_or_pos e with rfl | hpos
  · rw [entryIndex_zero] at h
    omega
  · have hidx := entryIndex_of_pos hpos he
    rw [hidx] at h ⊢
    omega

theorem checkSource_ok {D : ℕ} {cf : BoardConflicts} {so : Src} {si ei : ℕ}
    {b : Bool} (h : checkSource D cf so si ei = .ok b) :
    si < D ∧ ei < D ∧ b = (cf.src so).table si ei := by
  unfold checkSource at h
  split at h
  · next hc => exact ⟨hc.1, hc.2, by injection h with h; exact h.symm⟩
  · cases h

theorem checkSource_eq {D : ℕ} {cf : BoardConflicts} {so : Src} {si ei : ℕ}
    (h1 : si < D) (h2 : ei < D) :
    checkSource D cf so si ei = .ok ((cf.src so).table si ei) := by
  unfold checkSource
  rw [if_pos ⟨h1, h2⟩]

theorem setSource_ok {D : ℕ} {cf cf' : BoardConflicts} {so : Src} {si ei : ℕ}
    {st : Bool} (h : setSource D cf so si ei st = .ok cf') :
    si < D ∧ ei < D ∧ cf' = setSourceCore cf so si ei st := by
  unfold setSource at h
  split at h
  · next hc => exact ⟨hc.1, hc.2, by injection h with h; exact h.symm⟩
  · cases h

theorem setSource_eq {D : ℕ} {cf : BoardConflicts} {so : Src} {si ei : ℕ}
    {st : Bool} (h1 : si < D) (h2 : ei < D) :
    setSource D cf so si ei st = .ok (setSourceCore cf so si ei st) := by
  unfold setSource
  rw [if_pos ⟨h1, h2⟩]

theorem setConflictState_ok {N : ℕ} {cf cf' : BoardConflicts} {coord : Coord}
    {e : ℕ} {st : Bool} (h : setConflictState N cf coord e st = .ok cf') :
    coord.1 < N * N ∧ coord.2 < N * N ∧ blockIndexOf N coord < N * N ∧
      entryIndex e < N * N ∧ cf' = setConflictCore N cf coord e st := by
  unfold setConflictState at h
  split at h
  · cases h
  · next cf1 heq1 =>
    split at h
    · cases h
    · next cf2 heq2 =>
      obtain ⟨hr, hi, rfl⟩ := setSource_ok heq1
      obtain ⟨hc, -, rfl⟩ := setSource_ok heq2
      obtain ⟨hb, -, rfl⟩ := setSource_ok h
      exact ⟨hr, hc, hb, hi, rfl⟩

theorem setConflictState_eq {N : ℕ} {cf : BoardConflicts} {coord : Coord}
    {e : ℕ} {st : Bool} (h1 : coord.1 < N * N) (h2 : coord.2 < N * N)
    (h3 : blockIndexOf N coord < N * N) (h4 : entryIndex e < N * N) :
    setConflictState N cf coord e st = .ok (setConflictCore N cf coord e st) := by
  simp only [setConflictState, setSource_eq h1 h4, setSource_eq h2 h4,
    setSource_eq h3 h4, setConflictCore]

/-- The state produced by a successful `set_cell`: the board update together
with the conflict-table updates (clearing the old entry's bits when the cell
was occupied, then setting the new entry's bits). -/
def setCellResult (N : ℕ) (s : SudokuState) (coord : Coord) (e : ℕ) :
    SudokuState :=
  { board := fun a b => if a = coord.1 ∧ b = coord.2 then e else s.board a b
    conflicts :=
      setConflictCore N
        (if s.board coord.1 coord.2 ≠ 0 then
           setConflictCore N s.conflicts coord (s.board coord.1 coord.2) false
         else s.conflicts)
        coord e true }

/-- Case analysis of a non-throwing `set_cell`. -/
theorem setCell_ok {N : ℕ} {s s' : SudokuState} {coord : Coord} {e : ℕ}
    {b : Bool} (h : setCell N s coord e = .ok (b, s')) :
    (b = false ∧ s' = s ∧ checkLegalMove N s coord e = .ok false) ∨
    (b = true ∧ checkLegalMove N s coord e = .ok true ∧
      coord.1 < N * N ∧ coord.2 < N * N ∧ s' = setCellResult N s coord e) := by
  unfold setCell at h
  split at h
  · cases h
  · next legal heq =>
    cases legal with
    | false =>
      left
      simp only [Bool.not_false, if_pos] at h
      injection h with h
      exact ⟨congrArg Prod.fst h.symm, congrArg Prod.snd h.symm, heq⟩
    | true =>
      right
      rw [Bool.not_true, if_neg (by simp)] at h
      split at h
      · next hin =>
        dsimp only at h
        split at h
        · cases h
        · next cf1 hcf1 =>
          split at h
          · cases h
          · next cf2 hcf2 =>
            injection h with h
            injection h with hb hs
            subst hb
            subst hs
            refine ⟨rfl, heq, hin.1, hin.2, ?_⟩
            obtain ⟨-, -, -, -, rfl⟩ := setConflictState_ok hcf2
            unfold setCellResult
            congr 1
            split at hcf1
            · next hcell =>
              obtain ⟨-, -, -, -, rfl⟩ := setConflictState_ok hcf1
              rw [if_pos hcell]
            · next hcell =>
              injection hcf1 with hcf1
              rw [if_neg hcell, hcf1]
      · cases h

theorem src_rows (cf : BoardConflicts) : cf.src .rows = cf.rows := rfl

theorem src_cols (cf : BoardConflicts) : cf.src .cols = cf.cols := rfl

theorem src_blocks (cf : BoardConflicts) : cf.src .blocks = cf.blocks := rfl

/-- A legal move bounds-checks all three conflict accesses and finds all three
bits clear. -/
theorem checkLegalMove_ok_true {N : ℕ} {s : SudokuState} {coord : Coord}
    {e : ℕ} (h : checkLegalMove N s coord e = .ok true) :
    coord.1 < N * N ∧ coord.2 < N * N ∧ blockIndexOf N coord < N * N ∧
    entryIndex e < N * N ∧
    s.conflicts.rows.table coord.1 (entryIndex e) = false ∧
    s.conflicts.cols.table coord.2 (entryIndex e) = false ∧
    s.conflicts.blocks.table (blockIndexOf N coord) (entryIndex e) = false := by
  unfold checkLegalMove at h
  split at h
  · cases h
  · next b1 heq1 =>
    obtain ⟨hr, hi, hb1⟩ := checkSource_ok heq1
    subst hb1
    split at h
    · simp at h
    · next hb1f =>
      split at h
      · cases h
      · next b2 heq2 =>
        obtain ⟨hc, -, hb2⟩ := checkSource_ok heq2
        subst hb2
        split at h
        · simp at h
        · next hb2f =>
          split at h
          · cases h
          · next b3 heq3 =>
            obtain ⟨hblk, -, hb3⟩ := checkSource_ok heq3
            subst hb3
            injection h with h
            exact ⟨hr, hc, hblk, hi, by simpa using hb1f, by simpa using hb2f,
              by simpa using h⟩

/-- Conversely, when all four indices are in bounds `check_legal_move` returns
the conjunction of the three negated bits. -/
theorem checkLegalMove_eq {N : ℕ} (s : SudokuState) {coord : Coord} {e : ℕ}
    (h1 : coord.1 < N * N) (h2 : coord.2 < N * N)
    (h3 : blockIndexOf N coord < N * N) (h4 : entryIndex e < N * N) :
    checkLegalMove N s coord e =
      .ok (!(s.conflicts.rows.table coord.1 (entryIndex e)) &&
        (!(s.conflicts.cols.table coord.2 (entryIndex e)) &&
          !(s.conflicts.blocks.table (blockIndexOf N coord) (entryIndex e)))) := by
  unfold checkLegalMove
  rw [checkSource_eq h1 h4, checkSource_eq h2 h4, checkSource_eq h3 h4,
    src_rows, src_cols, src_blocks]
  cases s.conflicts.rows.table coord.1 (entryIndex e) <;>
    cases s.conflicts.cols.table coord.2 (entryIndex e) <;>
      cases s.conflicts.blocks.table (blockIndexOf N coord) (entryIndex e) <;>
        simp

/-- An illegal move leaves `set_cell` at the early `false` return. -/
theorem setCell_of_illegal {N : ℕ} {s : SudokuState} {coord : Coord} {e : ℕ}
    (h : checkLegalMove N s coord e = .ok false) :
    setCell N s coord e = .ok (false, s) := by
  unfold setCell
  rw [h]
  rfl

/-! Component computations of the conflict update composite.  Each
`setSourceCore` touches only its own conflict source (plus the per-entry
counts), so the three updates commute past each other's fields. -/

theorem setConflictCore_rows_table (N : ℕ) (cf : BoardConflicts)
    (coord : Coord) (e : ℕ) (st : Bool) :
    (setConflictCore N cf coord e st).rows.table = fun a b =>
      if a = coord.1 ∧ b = entryIndex e then st else cf.rows.table a b := rfl

theorem setConflictCore_cols_table (N : ℕ) (cf : BoardConflicts)
    (coord : Coord) (e : ℕ) (st : Bool) :
    (setConflictCore N cf coord e st).cols.table = fun a b =>
      if a = coord.2 ∧ b = entryIndex e then st else cf.cols.table a b := rfl

theorem setConflictCore_blocks_table (N : ℕ) (cf : BoardConflicts)
    (coord : Coord) (e : ℕ) (st : Bool) :
    (setConflictCore N cf coord e st).blocks.table = fun a b =>
      if a = blockIndexOf N coord ∧ b = entryIndex e then st
      else cf.blocks.table a b := rfl

theorem setConflictCore_rows_counts (N : ℕ) (cf : BoardConflicts)
    (coord : Coord) (e : ℕ) (st : Bool) :
    (setConflictCore N cf coord e st).rows.counts =
      if cf.rows.table coord.1 (entryIndex e) ≠ st then
        fun i => if i = coord.1 then
            (if st then (cf.rows.counts i + 1) % 2 ^ 32
             else (cf.rows.counts i + (2 ^ 32 - 1)) % 2 ^ 32)
          else cf.rows.counts i
      else cf.rows.counts := rfl

theorem setConflictCore_cols_counts (N : ℕ) (cf : BoardConflicts)
    (coord : Coord) (e : ℕ) (st : Bool) :
    (setConflictCore N cf coord e st).cols.counts =
      if cf.cols.table coord.2 (entryIndex e) ≠ st then
        fun i => if i = coord.2 then
            (if st then (cf.cols.counts i + 1) % 2 ^ 32
             else (cf.cols.counts i + (2 ^ 32 - 1)) % 2 ^ 32)
          else cf.cols.counts i
      else cf.cols.counts := rfl

theorem setConflictCore_blocks_counts (N : ℕ) (cf : BoardConflicts)
    (coord : Coord) (e : ℕ) (st : Bool) :
    (setConflictCore N cf coord e st).blocks.counts =
      if cf.blocks.table (blockIndexOf N coord) (entryIndex e) ≠ st then
        fun i => if i = blockIndexOf N coord then
            (if st then (cf.blocks.counts i + 1) % 2 ^ 32
             else (cf.blocks.counts i + (2 ^ 32 - 1)) % 2 ^ 32)
          else cf.blocks.counts i
      else cf.blocks.counts := rfl

/-- Per-entry counter update of a single `set_source` call: when the bit
flips, the entry counter at the entry index moves by one (wrapping). -/
theorem setSourceCore_entryCounts (cf : BoardConflicts) (so : Src)
    (si ei : ℕ) (st : Bool) :
    (setSourceCore cf so si ei st).entryCounts =
      if (cf.src so).table si ei ≠ st then
        fun v => if v = ei then
            (if st then (cf.entryCounts v + 1) % 2 ^ 32
             else (cf.entryCounts v + (2 ^ 32 - 1)) % 2 ^ 32)
          else cf.entryCounts v
      else cf.entryCounts := rfl

/-! Counting lemmas for the cached per-source counts. -/

theorem bitCard_point_other {D : ℕ} {t : ℕ → ℕ → Bool} {i j a : ℕ} {v : Bool}
    (ha : a ≠ i) :
    bitCard D (fun x b => if x = i ∧ b = j then v else t x b) a =
      bitCard D t a := by
  unfold bitCard
  congr 1
  apply Finset.filter_congr
  intro b _
  simp [ha]

theorem bitCard_point_true {D : ℕ} {t : ℕ → ℕ → Bool} {i j : ℕ} (hj : j < D)
    (hf : t i j = false) :
    bitCard D (fun x b => if x = i ∧ b = j then true else t x b) i =
      bitCard D t i + 1 := by
  unfold bitCard
  show ((Finset.range D).filter
      (fun b => (if i = i ∧ b = j then true else t i b) = true)).card = _
  have hset : (Finset.range D).filter
      (fun b => (if i = i ∧ b = j then true else t i b) = true) =
      insert j ((Finset.range D).filter fun b => t i b = true) := by
    ext x
    simp only [Finset.mem_filter, Finset.mem_range, Finset.mem_insert, true_and]
    constructor
    · rintro ⟨hx, hcond⟩
      by_cases hxj : x = j
      · exact .inl hxj
      · right
        refine ⟨hx, ?_⟩
        simpa [hxj] using hcond
    · rintro (rfl | ⟨hx, hxv⟩)
      · exact ⟨hj, by simp⟩
      · exact ⟨hx, by by_cases hxj : x = j <;> simp [hxj, hxv]⟩
  rw [hset, Finset.card_insert_of_not_mem (by simp [hf])]

theorem bitCard_point_false_mem {D : ℕ} {t : ℕ → ℕ → Bool} {i j : ℕ}
    (hj : j < D) (ht : t i j = true) :
    bitCard D (fun x b => if x = i ∧ b = j then false else t x b) i =
        bitCard D t i - 1 ∧
      1 ≤ bitCard D t i := by
  have hmem : j ∈ (Finset.range D).filter (fun b => t i b = true) := by
    simp [hj, ht]
  constructor
  · unfold bitCard
    show ((Finset.range D).filter
        (fun b => (if i = i ∧ b = j then false else t i b) = true)).card = _
    have hset : (Finset.range D).filter
        (fun b => (if i = i ∧ b = j then false else t i b) = true) =
        ((Finset.range D).filter fun b => t i b = true).erase j := by
      ext x
      simp only [Finset.mem_filter, Finset.mem_range, Finset.mem_erase,
        true_and]
      constructor
      · rintro ⟨hx, hcond⟩
        by_cases hxj : x = j
        · simp [hxj] at hcond
        · exact ⟨hxj, hx, by simpa [hxj] using hcond⟩
      · rintro ⟨hxj, hx, hxv⟩
        exact ⟨hx, by simpa [hxj] using hxv⟩
    rw [hset, Finset.card_erase_of_mem hmem]
  · exact Finset.card_pos.mpr ⟨j, hmem⟩

/-- The block index of an in-range coordinate is in range. -/
theorem blockIndexOf_lt {N r c : ℕ} (hr : r < N * N) (hc : c < N * N) :
    blockIndexOf N (r, c) < N * N := by
  have hN : 0 < N := by
    rcases Nat.eq_zero_or_pos N with rfl | h
    · simp at hr
    · exact h
  unfold blockIndexOf
  have h1 : r / N ≤ N - 1 := by
    apply Nat.le_sub_one_of_lt
    exact Nat.div_lt_of_lt_mul (by omega)
  have h2 : c / N < N := Nat.div_lt_of_lt_mul (by omega)
  calc N * (r / N) + c / N ≤ N * (N - 1) + c / N := by
        exact Nat.add_le_add_right (Nat.mul_le_mul_left N h1) _
    _ < N * (N - 1) + N := by omega
    _ ≤ N * N := by
        have := Nat.mul_le_mul_left N (Nat.sub_le N 1)
        nlinarith [Nat.sub_add_cancel hN]

/-- The state produced by `clear_cell` on an occupied cell. -/
def clearCellResult (N : ℕ) (s : SudokuState) (coord : Coord) : SudokuState :=
  { board := fun a b => if a = coord.1 ∧ b = coord.2 then 0 else s.board a b
    conflicts :=
      setConflictCore N s.conflicts coord (s.board coord.1 coord.2) false }

theorem clearCell_ok {N : ℕ} {s s' : SudokuState} {coord : Coord}
    (h : clearCell N s coord = .ok s') :
    coord.1 < N * N ∧ coord.2 < N * N ∧
    ((s.board coord.1 coord.2 = 0 ∧ s' = s) ∨
     (s.board coord.1 coord.2 ≠ 0 ∧ s' = clearCellResult N s coord)) := by
  unfold clearCell at h
  split at h
  · next hin =>
    refine ⟨hin.1, hin.2, ?_⟩
    dsimp only at h
    split at h
    · next hcell =>
      split at h
      · cases h
      · next cf1 hcf1 =>
        injection h with h
        obtain ⟨-, -, -, -, rfl⟩ := setConflictState_ok hcf1
        exact .inr ⟨hcell, h.symm⟩
    -- the two branches above land in `clearCellResult` by definitional
    -- unfolding
    · next hcell =>
      injection h with h
      exact .inl ⟨by simpa using hcell, h.symm⟩
  · cases h

/-! ### Preservation of the invariant -/

theorem wf_clearCellResult {N : ℕ} {s : SudokuState} {coord : Coord}
    (hD : N * N < 2 ^ 32) (hwf : WF N s)
    (hr : coord.1 < N * N) (hc : coord.2 < N * N)
    (h0 : s.board coord.1 coord.2 ≠ 0) :
    WF N (clearCellResult N s coord) := by
  have htw : TableWF N s := hwf
  set v₀ := s.board coord.1 coord.2 with hv₀
  have hv1 : 1 ≤ v₀ := Nat.one_le_iff_ne_zero.mpr h0
  have hvD : v₀ ≤ N * N := htw.range _ _ hr hc
  have hidx : entryIndex v₀ = v₀ - 1 := entryIndex_of_pos hv1 (by omega)
  have hidxD : entryIndex v₀ < N * N := by rw [hidx]; omega
  have hblk : blockIndexOf N coord < N * N := blockIndexOf_lt hr hc
  have hbitR : s.conflicts.rows.table coord.1 (entryIndex v₀) = true := by
    rw [hidx]
    exact (htw.rowIff coord.1 (v₀ - 1) hr (by omega)).mpr
      ⟨coord.2, hc, by omega⟩
  have hbitC : s.conflicts.cols.table coord.2 (entryIndex v₀) = true := by
    rw [hidx]
    exact (htw.colIff coord.2 (v₀ - 1) hc (by omega)).mpr
      ⟨coord.1, hr, by omega⟩
  have hbitB : s.conflicts.blocks.table (blockIndexOf N coord)
      (entryIndex v₀) = true := by
    rw [hidx]
    exact (htw.blockIff (blockIndexOf N coord) (v₀ - 1) hblk (by omega)).mpr
      ⟨coord.1, coord.2, hr, hc, rfl, by omega⟩
  have hboard : (clearCellResult N s coord).board = fun a b =>
      if a = coord.1 ∧ b = coord.2 then 0 else s.board a b := rfl
  have htabR : (clearCellResult N s coord).conflicts.rows.table = fun a b =>
      if a = coord.1 ∧ b = entryIndex v₀ then false
      else s.conflicts.rows.table a b := rfl
  have htabC : (clearCellResult N s coord).conflicts.cols.table = fun a b =>
      if a = coord.2 ∧ b = entryIndex v₀ then false
      else s.conflicts.cols.table a b := rfl
  have htabB : (clearCellResult N s coord).conflicts.blocks.table = fun a b =>
      if a = blockIndexOf N coord ∧ b = entryIndex v₀ then false
      else s.conflicts.blocks.table a b := rfl
  refine ⟨?_, ?_, ?_, ?_, ?_, ?_, ?_⟩
  · -- range
    intro r c hrD hcD
    rw [hboard]
    dsimp only
    split
    · omega
    · exact htw.range r c hrD hcD
  · -- rowIff
    intro r v hrD hvD'
    rw [htabR, hboard]
    dsimp only
    by_cases hcase : r = coord.1 ∧ v = entryIndex v₀
    · rw [if_pos hcase]
      obtain ⟨rfl, hv⟩ := hcase
      rw [hidx] at hv
      refine iff_of_false (by simp) ?_
      rintro ⟨c', hcD, hbc⟩
      by_cases hc2 : c' = coord.2
      · rw [if_pos ⟨rfl, hc2⟩] at hbc
        omega
      · rw [if_neg (fun hq => hc2 hq.2)] at hbc
        refine hc2 (htw.rowUniq coord.1 c' coord.2 hr hcD hc ?_ ?_)
        · rw [hbc]; omega
        · rw [hbc]; omega
    · rw [if_neg hcase, htw.rowIff r v hrD hvD']
      constructor
      · rintro ⟨c', hcD, hbc⟩
        refine ⟨c', hcD, ?_⟩
        have hno : ¬(r = coord.1 ∧ c' = coord.2) := by
          rintro ⟨rfl, rfl⟩
          exact hcase ⟨rfl, by rw [hidx]; omega⟩
        rw [if_neg hno]
        exact hbc
      · rintro ⟨c', hcD, hbc⟩
        by_cases hcc : r = coord.1 ∧ c' = coord.2
        · rw [if_pos hcc] at hbc
          omega
        · rw [if_neg hcc] at hbc
          exact ⟨c', hcD, hbc⟩
  · -- colIff
    intro c v hcD hvD'
    rw [htabC, hboard]
    dsimp only
    by_cases hcase : c = coord.2 ∧ v = entryIndex v₀
    · rw [if_pos hcase]
      obtain ⟨rfl, hv⟩ := hcase
      rw [hidx] at hv
      refine iff_of_false (by simp) ?_
      rintro ⟨r', hrD, hbc⟩
      by_cases hr2 : r' = coord.1
      · rw [if_pos ⟨hr2, rfl⟩] at hbc
        omega
      · rw [if_neg (fun hq => hr2 hq.1)] at hbc
        refine hr2 (htw.colUniq coord.2 r' coord.1 hc hrD hr ?_ ?_)
        · rw [hbc]; omega
        · rw [hbc]; omega
    · rw [if_neg hcase, htw.colIff c v hcD hvD']
      constructor
      · rintro ⟨r', hrD, hbc⟩
        refine ⟨r', hrD, ?_⟩
        have hno : ¬(r' = coord.1 ∧ c = coord.2) := by
          rintro ⟨rfl, rfl⟩
          exact hcase ⟨rfl, by rw [hidx]; omega⟩
        rw [if_neg hno]
        exact hbc
      · rintro ⟨r', hrD, hbc⟩
        by_cases hcc : r' = coord.1 ∧ c = coord.2
        · rw [if_pos hcc] at hbc
          omega
        · rw [if_neg hcc] at hbc
          exact ⟨r', hrD, hbc⟩
  · -- blockIff
    intro bk v hbkD hvD'
    rw [htabB, hboard]
    dsimp only
    by_cases hcase : bk = blockIndexOf N coord ∧ v = entryIndex v₀
    · rw [if_pos hcase]
      obtain ⟨rfl, hv⟩ := hcase
      rw [hidx] at hv
      refine iff_of_false (by simp) ?_
      rintro ⟨r', c', hrD, hcD, hblk', hbc⟩
      by_cases hp : r' = coord.1 ∧ c' = coord.2
      · rw [if_pos hp] at hbc
        omega
      · rw [if_neg hp] at hbc
        have := htw.blockUniq r' c' coord.1 coord.2 hrD hcD hr hc
          (by rw [hblk']) (by rw [hbc]; omega) (by rw [hbc]; omega)
        exact hp ⟨this.1, this.2⟩
    · rw [if_neg hcase, htw.blockIff bk v hbkD hvD']
      constructor
      · rintro ⟨r', c', hrD, hcD, hblk', hbc⟩
        refine ⟨r', c', hrD, hcD, hblk', ?_⟩
        have hno : ¬(r' = coord.1 ∧ c' = coord.2) := by
          rintro ⟨rfl, rfl⟩
          exact hcase ⟨hblk'.symm, by rw [hidx]; omega⟩
        rw [if_neg hno]
        exact hbc
      · rintro ⟨r', c', hrD, hcD, hblk', hbc⟩
        by_cases hp : r' = coord.1 ∧ c' = coord.2
        · rw [if_pos hp] at hbc
          omega
        · rw [if_neg hp] at hbc
          exact ⟨r', c', hrD, hcD, hblk', hbc⟩
  · -- row uniqueness
    intro r c₁ c₂ hrD h1 h2 hne heq
    rw [hboard] at hne heq
    dsimp only at hne heq
    by_cases k₁ : r = coord.1 ∧ c₁ = coord.2
    · rw [if_pos k₁] at hne
      exact absurd rfl hne
    · rw [if_neg k₁] at hne heq
      by_cases k₂ : r = coord.1 ∧ c₂ = coord.2
      · rw [if_pos k₂] at heq
        exact absurd heq hne
      · rw [if_neg k₂] at heq
        exact htw.rowUniq r c₁ c₂ hrD h1 h2 hne heq
  · -- column uniqueness
    intro c r₁ r₂ hcD h1 h2 hne heq
    rw [hboard] at hne heq
    dsimp only at hne heq
    by_cases k₁ : r₁ = coord.1 ∧ c = coord.2
    · rw [if_pos k₁] at hne
      exact absurd rfl hne
    · rw [if_neg k₁] at hne heq
      by_cases k₂ : r₂ = coord.1 ∧ c = coord.2
      · rw [if_pos k₂] at heq
        exact absurd heq hne
      · rw [if_neg k₂] at heq
        exact htw.colUniq c r₁ r₂ hcD h1 h2 hne heq
  · -- block uniqueness
    intro r₁ c₁ r₂ c₂ h1 h2 h3 h4 hbb hne heq
    rw [hboard] at hne heq
    dsimp only at hne heq
    by_cases k₁ : r₁ = coord.1 ∧ c₁ = coord.2
    · rw [if_pos k₁] at hne
      exact absurd rfl hne
    · rw [if_neg k₁] at hne heq
      by_cases k₂ : r₂ = coord.1 ∧ c₂ = coord.2
      · rw [if_pos k₂] at heq
        exact absurd heq hne
      · rw [if_neg k₂] at heq
        exact htw.blockUniq r₁ c₁ r₂ c₂ h1 h2 h3 h4 hbb hne heq

theorem wf_setCellBlank {N : ℕ} {s : SudokuState} {coord : Coord} {e : ℕ}
    (hD : N * N < 2 ^ 32) (he32 : e < 2 ^ 32) (hwf : WF N s)
    (hlegal : checkLegalMove N s coord e = .ok true)
    (hblank : s.board coord.1 coord.2 = 0) :
    WF N (setCellResult N s coord e) := by
  have htw : TableWF N s := hwf
  obtain ⟨hr, hc, hblk, hidxD, hbr, hbc0, hbb⟩ := checkLegalMove_ok_true hlegal
  obtain ⟨he1, heD, hidx⟩ := entry_of_entryIndex_lt hD he32 hidxD
  have hboard : (setCellResult N s coord e).board = fun a b =>
      if a = coord.1 ∧ b = coord.2 then e else s.board a b := rfl
  have hconf : (setCellResult N s coord e).conflicts =
      setConflictCore N s.conflicts coord e true := by
    unfold setCellResult
    rw [if_neg (by simp [hblank])]
  have htabR : (setCellResult N s coord e).conflicts.rows.table = fun a b =>
      if a = coord.1 ∧ b = entryIndex e then true
      else s.conflicts.rows.table a b := by
    rw [hconf, setConflictCore_rows_table]
  have htabC : (setCellResult N s coord e).conflicts.cols.table = fun a b =>
      if a = coord.2 ∧ b = entryIndex e then true
      else s.conflicts.cols.table a b := by
    rw [hconf, setConflictCore_cols_table]
  have htabB : (setCellResult N s coord e).conflicts.blocks.table = fun a b =>
      if a = blockIndexOf N coord ∧ b = entryIndex e then true
      else s.conflicts.blocks.table a b := by
    rw [hconf, setConflictCore_blocks_table]
  have hnoRow : ∀ c', c' < N * N → s.board coord.1 c' ≠ e := by
    intro c' hc' hce
    have := (htw.rowIff coord.1 (entryIndex e) hr hidxD).mpr
      ⟨c', hc', by omega⟩
    rw [hbr] at this
    cases this
  have hnoCol : ∀ r', r' < N * N → s.board r' coord.2 ≠ e := by
    intro r' hr' hce
    have := (htw.colIff coord.2 (entryIndex e) hc hidxD).mpr
      ⟨r', hr', by omega⟩
    rw [hbc0] at this
    cases this
  have hnoBlock : ∀ r' c', r' < N * N → c' < N * N →
      blockIndexOf N (r', c') = blockIndexOf N coord →
      s.board r' c' ≠ e := by
    intro r' c' hr' hc' hbe hce
    have := (htw.blockIff (blockIndexOf N coord) (entryIndex e) hblk
      hidxD).mpr ⟨r', c', hr', hc', hbe, by omega⟩
    rw [hbb] at this
    cases this
  refine ⟨?_, ?_, ?_, ?_, ?_, ?_, ?_⟩
  · -- range
    intro r c hrD hcD
    rw [hboard]
    dsimp only
    split
    · omega
    · exact htw.range r c hrD hcD
  · -- rowIff
    intro r v hrD hvD'
    rw [htabR, hboard]
    dsimp only
    by_cases hcase : r = coord.1 ∧ v = entryIndex e
    · rw [if_pos hcase]
      obtain ⟨rfl, hv⟩ := hcase
      refine iff_of_true rfl ⟨coord.2, hc, ?_⟩
      rw [if_pos ⟨rfl, rfl⟩]
      omega
    · rw [if_neg hcase, htw.rowIff r v hrD hvD']
      constructor
      · rintro ⟨c', hcD, hbcell⟩
        refine ⟨c', hcD, ?_⟩
        have hno : ¬(r = coord.1 ∧ c' = coord.2) := by
          rintro ⟨rfl, rfl⟩
          rw [hblank] at hbcell
          omega
        rw [if_neg hno]
        exact hbcell
      · rintro ⟨c', hcD, hbcell⟩
        by_cases hcc : r = coord.1 ∧ c' = coord.2
        · rw [if_pos hcc] at hbcell
          exact absurd ⟨hcc.1, by omega⟩ hcase
        · rw [if_neg hcc] at hbcell
          exact ⟨c', hcD, hbcell⟩
  · -- colIff
    intro c v hcD hvD'
    rw [htabC, hboard]
    dsimp only
    by_cases hcase : c = coord.2 ∧ v = entryIndex e
    · rw [if_pos hcase]
      obtain ⟨rfl, hv⟩ := hcase
      refine iff_of_true rfl ⟨coord.1, hr, ?_⟩
      rw [if_pos ⟨rfl, rfl⟩]
      omega
    · rw [if_neg hcase, htw.colIff c v hcD hvD']
      constructor
      · rintro ⟨r', hrD, hbcell⟩
        refine ⟨r', hrD, ?_⟩
        have hno : ¬(r' = coord.1 ∧ c = coord.2) := by
          rintro ⟨rfl, rfl⟩
          rw [hblank] at hbcell
          omega
        rw [if_neg hno]
        exact hbcell
      · rintro ⟨r', hrD, hbcell⟩
        by_cases hcc : r' = coord.1 ∧ c = coord.2
        · rw [if_pos hcc] at hbcell
          exact absurd ⟨hcc.2, by omega⟩ hcase
        · rw [if_neg hcc] at hbcell
          exact ⟨r', hrD, hbcell⟩
  · -- blockIff
    intro bk v hbkD hvD'
    rw [htabB, hboard]
    dsimp only
    by_cases hcase : bk = blockIndexOf N coord ∧ v = entryIndex e
    · rw [if_pos hcase]
      obtain ⟨rfl, hv⟩ := hcase
      refine iff_of_true rfl ⟨coord.1, coord.2, hr, hc, rfl, ?_⟩
      rw [if_pos ⟨rfl, rfl⟩]
      omega
    · rw [if_neg hcase, htw.blockIff bk v hbkD hvD']
      constructor
      · rintro ⟨r', c', hrD, hcD, hblk', hbcell⟩
        refine ⟨r', c', hrD, hcD, hblk', ?_⟩
        have hno : ¬(r' = coord.1 ∧ c' = coord.2) := by
          rintro ⟨rfl, rfl⟩
          rw [hblank] at hbcell
          omega
        rw [if_neg hno]
        exact hbcell
      · rintro ⟨r', c', hrD, hcD, hblk', hbcell⟩
        by_cases hp : r' = coord.1 ∧ c' = coord.2
        · rw [if_pos hp] at hbcell
          refine absurd ⟨?_, by omega⟩ hcase
          rw [← hblk']
          obtain ⟨rfl, rfl⟩ := hp
          rfl
        · rw [if_neg hp] at hbcell
          exact ⟨r', c', hrD, hcD, hblk', hbcell⟩
  · -- row uniqueness
    intro r c₁ c₂ hrD h1 h2 hne heq
    rw [hboard] at hne heq
    dsimp only at hne heq
    by_cases k₁ : r = coord.1 ∧ c₁ = coord.2
    · rw [if_pos k₁] at hne heq
      by_cases k₂ : r = coord.1 ∧ c₂ = coord.2
      · rw [k₁.2, k₂.2]
      · rw [if_neg k₂] at heq
        exact absurd heq.symm (hnoRow c₂ h2 ∘ (k₁.1 ▸ id))
    · rw [if_neg k₁] at hne heq
      by_cases k₂ : r = coord.1 ∧ c₂ = coord.2
      · rw [if_pos k₂] at heq
        exact absurd (k₂.1 ▸ heq) (hnoRow c₁ h1)
      · rw [if_neg k₂] at heq
        exact htw.rowUniq r c₁ c₂ hrD h1 h2 hne heq
  · -- column uniqueness
    intro c r₁ r₂ hcD h1 h2 hne heq
    rw [hboard] at hne heq
    dsimp only at hne heq
    by_cases k₁ : r₁ = coord.1 ∧ c = coord.2
    · rw [if_pos k₁] at hne heq
      by_cases k₂ : r₂ = coord.1 ∧ c = coord.2
      · rw [k₁.1, k₂.1]
      · rw [if_neg k₂] at heq
        exact absurd heq.symm (hnoCol r₂ h2 ∘ (k₁.2 ▸ id))
    · rw [if_neg k₁] at hne heq
      by_cases k₂ : r₂ = coord.1 ∧ c = coord.2
      · rw [if_pos k₂] at heq
        exact absurd (k₂.2 ▸ heq) (hnoCol r₁ h1)
      · rw [if_neg k₂] at heq
        exact htw.colUniq c r₁ r₂ hcD h1 h2 hne heq
  · -- block uniqueness
    intro r₁ c₁ r₂ c₂ h1 h2 h3 h4 hbb' hne heq
    rw [hboard] at hne heq
    dsimp only at hne heq
    by_cases k₁ : r₁ = coord.1 ∧ c₁ = coord.2
    · rw [if_pos k₁] at hne heq
      by_cases k₂ : r₂ = coord.1 ∧ c₂ = coord.2
      · exact ⟨k₁.1.trans k₂.1.symm, k₁.2.trans k₂.2.symm⟩
      · rw [if_neg k₂] at heq
        refine absurd heq.symm (hnoBlock r₂ c₂ h3 h4 ?_)
        rw [← hbb']
        obtain ⟨hk1, hk2⟩ := k₁
        rw [hk1, hk2]
    · rw [if_neg k₁] at hne heq
      by_cases k₂ : r₂ = coord.1 ∧ c₂ = coord.2
      · rw [if_pos k₂] at heq
        refine absurd heq (hnoBlock r₁ c₁ h1 h2 ?_)
        rw [hbb']
        obtain ⟨hk1, hk2⟩ := k₂
        rw [hk1, hk2]
      · rw [if_neg k₂] at heq
        exact htw.blockUniq r₁ c₁ r₂ c₂ h1 h2 h3 h4 hbb' hne heq

/-- Writing over an occupied cell factors as clearing the cell followed by a
blank-cell write: the source clears the old entry's conflicts before writing,
and the board write overwrites in either path. -/
theorem setCellResult_occupied_eq {N : ℕ} {s : SudokuState} {coord : Coord}
    {e : ℕ} (h0 : s.board coord.1 coord.2 ≠ 0) :
    setCellResult N s coord e =
      setCellResult N (clearCellResult N s coord) coord e := by
  unfold setCellResult clearCellResult
  congr 1
  · funext a b
    by_cases h : a = coord.1 ∧ b = coord.2 <;> simp [h]
  · rw [if_pos h0]
    dsimp only
    rw [if_neg (by simp)]

theorem wf_setCell {N : ℕ} {s s' : SudokuState} {coord : Coord} {e : ℕ}
    {b : Bool} (hD : N * N < 2 ^ 32) (he32 : e < 2 ^ 32) (hwf : WF N s)
    (h : setCell N s coord e = .ok (b, s')) : WF N s' := by
  rcases setCell_ok h with ⟨-, rfl, -⟩ | ⟨-, hlegal, hr, hc, rfl⟩
  · exact hwf
  · by_cases h0 : s.board coord.1 coord.2 = 0
    · exact wf_setCellBlank hD he32 hwf hlegal h0
    · rw [setCellResult_occupied_eq h0]
      have hwf1 := wf_clearCellResult hD hwf hr hc h0
      obtain ⟨hr', hc', hblk', hidxD, hbr, hbc0, hbb⟩ :=
        checkLegalMove_ok_true hlegal
      have b1 : (clearCellResult N s coord).conflicts.rows.table coord.1
          (entryIndex e) = false := by
        show (if coord.1 = coord.1 ∧
            entryIndex e = entryIndex (s.board coord.1 coord.2) then false
          else s.conflicts.rows.table coord.1 (entryIndex e)) = false
        split
        · rfl
        · exact hbr
      have b2 : (clearCellResult N s coord).conflicts.cols.table coord.2
          (entryIndex e) = false := by
        show (if coord.2 = coord.2 ∧
            entryIndex e = entryIndex (s.board coord.1 coord.2) then false
          else s.conflicts.cols.table coord.2 (entryIndex e)) = false
        split
        · rfl
        · exact hbc0
      have b3 : (clearCellResult N s coord).conflicts.blocks.table
          (blockIndexOf N coord) (entryIndex e) = false := by
        show (if blockIndexOf N coord = blockIndexOf N coord ∧
            entryIndex e = entryIndex (s.board coord.1 coord.2) then false
          else s.conflicts.blocks.table (blockIndexOf N coord)
            (entryIndex e)) = false
        split
        · rfl
        · exact hbb
      refine wf_setCellBlank hD he32 hwf1 ?_ (by simp [clearCellResult])
      rw [checkLegalMove_eq _ hr hc hblk' hidxD, b1, b2, b3]
      rfl

theorem wf_clearCell {N : ℕ} {s s' : SudokuState} {coord : Coord}
    (hD : N * N < 2 ^ 32) (hwf : WF N s)
    (h : clearCell N s coord = .ok s') : WF N s' := by
  obtain ⟨hr, hc, hcase⟩ := clearCell_ok h
  rcases hcase with ⟨-, rfl⟩ | ⟨h0, rfl⟩
  · exact hwf
  · exact wf_clearCellResult hD hwf hr hc h0

theorem wf_clearAll {N : ℕ} {s : SudokuState} (_hwf : WF N s) :
    WF N (clearAll s) := by
  refine ⟨?_, ?_, ?_, ?_, ?_, ?_, ?_⟩
  · intro r c _ _
    simp [clearAll]
  · intro r v _ _
    refine iff_of_false (by simp [clearAll]) ?_
    rintro ⟨c, -, hbc⟩
    simp [clearAll] at hbc
  · intro c v _ _
    refine iff_of_false (by simp [clearAll]) ?_
    rintro ⟨r, -, hbc⟩
    simp [clearAll] at hbc
  · intro bk v _ _
    refine iff_of_false (by simp [clearAll]) ?_
    rintro ⟨r, c, -, -, -, hbc⟩
    simp [clearAll] at hbc
  · intro r c₁ c₂ _ _ _ hne _
    exact absurd rfl hne
  · intro c r₁ r₂ _ _ _ hne _
    exact absurd rfl hne
  · intro r₁ c₁ r₂ c₂ _ _ _ _ _ hne _
    exact absurd rfl hne

theorem wf_init (N : ℕ) : WF N initState := by
  refine ⟨?_, ?_, ?_, ?_, ?_, ?_, ?_⟩
  · intro r c _ _
    simp [initState]
  · intro r v _ _
    refine iff_of_false (by simp [initState]) ?_
    rintro ⟨c, -, hbc⟩
    simp [initState] at hbc
  · intro c v _ _
    refine iff_of_false (by simp [initState]) ?_
    rintro ⟨r, -, hbc⟩
    simp [initState] at hbc
  · intro bk v _ _
    refine iff_of_false (by simp [initState]) ?_
    rintro ⟨r, c, -, -, -, hbc⟩
    simp [initState] at hbc
  · intro r c₁ c₂ _ _ _ hne _
    exact absurd rfl hne
  · intro c r₁ r₂ _ _ _ hne _
    exact absurd rfl hne
  · intro r₁ c₁ r₂ c₂ _ _ _ _ _ hne _
    exact absurd rfl hne

/-- Every reachable state satisfies the master invariant. -/
theorem wf_of_reachable {N : ℕ} {s : SudokuState} (hD : N * N < 2 ^ 32)
    (h : Reachable N s) : WF N s := by
  induction h with
  | init => exact wf_init N
  | set _ he32 hset ih => exact wf_setCell hD he32 ih hset
  | clear _ hclear ih => exact wf_clearCell hD ih hclear
  | wipe _ ih => exact wf_clearAll ih

/-! ### Claims C4, C3 and C10 -/

/-- Conflict-table consistency as stated by claim C4: the three bits of every
occupied cell are set, and each bit is set iff the value occurs in the
corresponding row/column/block. -/
def ConflictConsistent (N : ℕ) (s : SudokuState) : Prop :=
  (∀ r c, r < N * N → c < N * N → s.board r c ≠ 0 →
    s.conflicts.rows.table r (s.board r c - 1) = true ∧
    s.conflicts.cols.table c (s.board r c - 1) = true ∧
    s.conflicts.blocks.table (blockIndexOf N (r, c))
      (s.board r c - 1) = true) ∧
  (∀ i v, i < N * N → v < N * N →
    (s.conflicts.rows.table i v = true ↔ ∃ c, c < N * N ∧ s.board i c = v + 1)) ∧
  (∀ j v, j < N * N → v < N * N →
    (s.conflicts.cols.table j v = true ↔ ∃ r, r < N * N ∧ s.board r j = v + 1)) ∧
  (∀ bk v, bk < N * N → v < N * N →
    (s.conflicts.blocks.table bk v = true ↔
      ∃ r c, r < N * N ∧ c < N * N ∧ blockIndexOf N (r, c) = bk ∧
        s.board r c = v + 1))

/-- C4: after any finite sequence of public operations starting from the empty
board, the conflict tables are consistent with the board: the bits of every
occupied cell are set, and each bit is set iff the value appears in the
corresponding row, column, or block. -/
theorem reachable_conflict_consistent {N : ℕ} {s : SudokuState}
    (hD : N * N < 2 ^ 32) (hre : Reachable N s) : ConflictConsistent N s := by
  have htw : TableWF N s := wf_of_reachable hD hre
  refine ⟨?_, fun i v hi hv => htw.rowIff i v hi hv,
    fun j v hj hv => htw.colIff j v hj hv,
    fun bk v hb hv => htw.blockIff bk v hb hv⟩
  intro r c hr hc h0
  have hv1 : 1 ≤ s.board r c := Nat.one_le_iff_ne_zero.mpr h0
  have hvD : s.board r c ≤ N * N := htw.range r c hr hc
  refine ⟨(htw.rowIff r (s.board r c - 1) hr (by omega)).mpr ⟨c, hc, by omega⟩,
    (htw.colIff c (s.board r c - 1) hc (by omega)).mpr ⟨r, hr, by omega⟩,
    (htw.blockIff (blockIndexOf N (r, c)) (s.board r c - 1)
      (blockIndexOf_lt hr hc) (by omega)).mpr ⟨r, c, hr, hc, rfl, by omega⟩⟩

/-- A concrete reachable state for the witnesses: the `1 × 1` board after the
single successful write `set_cell((0,0), 1)`. -/
def exampleState1 : SudokuState :=
  match setCell 1 initState (0, 0) 1 with
  | .ok (_, t) => t
  | .error _ => initState

theorem exampleState1_step :
    setCell 1 initState (0, 0) 1 = .ok (true, exampleState1) := rfl

theorem exampleState1_reachable : Reachable 1 exampleState1 :=
  Reachable.set Reachable.init (by norm_num) exampleState1_step

/-- Witness for C4 at the concrete reachable state `exampleState1`. -/
theorem reachable_conflict_consistent_witness :
    Reachable 1 exampleState1 ∧ ConflictConsistent 1 exampleState1 :=
  ⟨exampleState1_reachable,
    reachable_conflict_consistent (by norm_num) exampleState1_reachable⟩

/-- C3 counterexample: on the reachable `1 × 1` board whose only cell holds
`1`, writing the same value `1` again returns `false` (the cell's own row,
column and block conflict bits are set), not `true` as the claim states.  The
state is returned unchanged. -/
theorem setCell_same_value_returns_false :
    setCell 1 exampleState1 (0, 0) 1 = .ok (false, exampleState1) := rfl

/-- C3 (amended): overwriting a cell with the value it already holds is
rejected: `set_cell` returns `false` (not `true`) and leaves the board, the
conflict tables, and all counters unchanged. -/
theorem setCell_same_value_rejected {N : ℕ} {s : SudokuState} {coord : Coord}
    {v : ℕ} (hD : N * N < 2 ^ 32) (hre : Reachable N s)
    (hr : coord.1 < N * N) (hc : coord.2 < N * N)
    (h0 : s.board coord.1 coord.2 = v) (hv : v ≠ 0) :
    setCell N s coord v = .ok (false, s) := by
  have htw : TableWF N s := wf_of_reachable hD hre
  have hv1 : 1 ≤ v := Nat.one_le_iff_ne_zero.mpr hv
  have hvD : v ≤ N * N := h0 ▸ htw.range coord.1 coord.2 hr hc
  have hidx : entryIndex v = v - 1 := entryIndex_of_pos hv1 (by omega)
  have hidxD : entryIndex v < N * N := by omega
  have hbit : s.conflicts.rows.table coord.1 (entryIndex v) = true := by
    rw [hidx]
    exact (htw.rowIff coord.1 (v - 1) hr (by omega)).mpr ⟨coord.2, hc, by omega⟩
  apply setCell_of_illegal
  rw [checkLegalMove_eq _ hr hc (blockIndexOf_lt hr hc) hidxD, hbit]
  rfl

/-- Witness for the amended C3, instantiating it at `exampleState1`. -/
theorem setCell_same_value_rejected_witness :
    Reachable 1 exampleState1 ∧ exampleState1.board 0 0 = 1 ∧
    setCell 1 exampleState1 (0, 0) 1 = .ok (false, exampleState1) :=
  ⟨exampleState1_reachable, rfl,
    setCell_same_value_rejected (by norm_num) exampleState1_reachable
      (by norm_num) (by norm_num) rfl (by norm_num)⟩

/-- C10: calling `set_cell` with an entry outside `[1, D]` — including the
blank sentinel `0` — does not return `false`: the conflict-table column index
`entry - 1` computed by the entry policy is out of range (for `0` it wraps
around to `2 ^ 32 - 1`), so the bounds-checked table access inside
`check_legal_move` throws `MatrixIndexError` before any write occurs, leaving
the board and all conflict state unchanged. -/
theorem setCell_invalid_entry_throws {N : ℕ} {s : SudokuState} {coord : Coord}
    {e : ℕ} (hD : N * N < 2 ^ 32) (he32 : e < 2 ^ 32)
    (hr : coord.1 < N * N) (_hc : coord.2 < N * N)
    (hout : e = 0 ∨ N * N < e) :
    setCell N s coord e = .error () := by
  have hidx : N * N ≤ entryIndex e := by
    rcases hout with rfl | hgt
    · rw [entryIndex_zero]
      omega
    · rw [entryIndex_of_pos (by omega) he32]
      omega
  unfold setCell checkLegalMove checkSource
  rw [if_neg (fun hq => absurd hq.2 (by omega))]

/-- Witness for C10: the blank sentinel `0` on the fresh `1 × 1` board. -/
theorem setCell_invalid_entry_throws_witness :
    setCell 1 initState (0, 0) 0 = .error () :=
  setCell_invalid_entry_throws (by norm_num) (by norm_num) (by norm_num)
    (by norm_num) (.inl rfl)

/-! ### The solver

The four `solve_*` member functions share the recursive backtracking core
`solve_after`, parameterized by a blank-cell selection function.  The scanning
selectors are `details::iterate_optional_until` loops over `step_row`,
`step_col`, `step_block`; the heuristic selector uses
`BoardConflicts::promising_index` (built on `details::max_bounded`).

The C++ recursions are realized with an explicit structural `fuel` argument;
every entry point passes `D * D + 1`, which dominates the recursion depth
(each level fills one more blank cell) and the scan length (at most `D * D`
steps).  Exhausted fuel is an `Except.error`, which no claim below treats as
a success. -/

/-- `SudokuBoard::step_row`. -/
def stepRow (D : ℕ) (c : Coord) : Option Coord :=
  if c.2 + 1 ≥ D then
    (if c.1 + 1 = D then none else some (c.1 + 1, 0))
  else some (c.1, c.2 + 1)

/-- `SudokuBoard::step_col`: `step_row` on the transposed coordinate. -/
def stepCol (D : ℕ) (c : Coord) : Option Coord :=
  match stepRow D (c.2, c.1) with
  | some t => some (t.2, t.1)
  | none => none

/-- `SudokuBoard::step_block`. -/
def stepBlock (N : ℕ) (c : Coord) : Option Coord :=
  if (c.2 + 1) % N ≠ 0 then some (c.1, c.2 + 1)
  else if (c.1 + 1) % N ≠ 0 then some (c.1 + 1, c.2 + 1 - N)
  else if (c.2 + 1) % (N * N) = 0 then
    (if c.1 = N * N - 1 then none else some (c.1 + 1, 0))
  else some (c.1 + 1 - N, c.2 + 1)

/-- `details::iterate_optional_until` specialised to the solver's blank-cell
searches: keep stepping while the bounds-checked cell read performed by the
predicate lambda (`(*m_board_entries)[c]`) finds a non-blank cell. -/
def findBlankFrom (D : ℕ) (board : ℕ → ℕ → ℕ) (step : Coord → Option Coord) :
    ℕ → Coord → Except Unit (Option Coord)
  | 0, _ => .error ()
  | fuel + 1, c =>
    if c.1 < D ∧ c.2 < D then
      if board c.1 c.2 = 0 then .ok (some c)
      else
        match step c with
        | none => .ok none
        | some c' => findBlankFrom D board step fuel c'
    else .error ()

/-- The loop body of `details::max_bounded`: `cur` is the current maximum as
an (index, value) pair, `i` the index of the head of the remaining list. -/
def maxBoundedGo (cap : ℕ) : ℕ × ℕ → ℕ → List ℕ → ℕ × ℕ
  | cur, _, [] => cur
  | cur, i, x :: xs =>
    if ¬x < cap then maxBoundedGo cap cur (i + 1) xs
    else if cur.2 < x then maxBoundedGo cap (i, x) (i + 1) xs
    else maxBoundedGo cap cur (i + 1) xs

/-- `details::max_bounded`: greatest element strictly below `cap` — except
that the running maximum starts at the *first* element whether or not it is
below `cap`. -/
def maxBounded (cap : ℕ) : List ℕ → Option (ℕ × ℕ)
  | [] => none
  | x :: xs => some (maxBoundedGo cap (0, x) 1 xs)

/-- `BoardConflicts::promising_index` over one source's count array
(`cap = N`, the board dimension of the conflict tables). -/
def promisingIndex (D : ℕ) (counts : ℕ → ℕ) : Option (ℕ × ℕ) :=
  maxBounded D ((List.range D).map counts)

/-- Fuel used by every scan and by the backtracking recursion. -/
def solveFuel (N : ℕ) : ℕ := N * N * (N * N) + 1

/-- The `guess_next` lambda of `SudokuBoard::solve_heuristic` (its coordinate
argument is ignored by the source).  When `promising_index` on the column
counts were ever empty the C++ would dereference an empty `std::optional`
(undefined behaviour), modelled by `Except.error`; this can only happen on a
zero-dimensional board. -/
def guessNext (N : ℕ) (s : SudokuState) : Except Unit (Option Coord) :=
  match promisingIndex (N * N) s.conflicts.rows.counts with
  | none => .ok none
  | some br =>
    match promisingIndex (N * N) s.conflicts.cols.counts with
    | none => .error ()
    | some bc =>
      if bc.2 < br.2 then
        findBlankFrom (N * N) s.board (stepRow (N * N)) (solveFuel N) (br.1, 0)
      else
        findBlankFrom (N * N) s.board (stepCol (N * N)) (solveFuel N) (0, bc.1)

/-- Insert into a list sorted by `key` (strictly-less comparisons, as passed
to `std::sort`). -/
def insertSorted (key : ℕ → ℕ) (x : ℕ) : List ℕ → List ℕ
  | [] => [x]
  | y :: ys => if key x < key y then x :: y :: ys else y :: insertSorted key x ys

/-- Deterministic realization of the `std::sort` call in `solve_after` (the
order of equal keys is unspecified in the source; insertion sort fixes one
comparator-consistent order). -/
def sortByKey (key : ℕ → ℕ) : List ℕ → List ℕ
  | [] => []
  | x :: xs => insertSorted key x (sortByKey key xs)

/-- The candidate entry indices of `solve_after`: `std::iota` over `[0, D)`
sorted ascending by the per-entry conflict counts. -/
def entryCandidates (N : ℕ) (s : SudokuState) : List ℕ :=
  sortByKey s.conflicts.entryCounts (List.range (N * N))

/-- The candidate loop of `SudokuBoard::solve_after`.  `recur` is the
recursive call at the next blank cell (one fuel level down), `cnt` the
running `call_count` (started at 1 by the caller). -/
def solveLoop (N : ℕ)
    (findNext : SudokuState → Coord → Except Unit (Option Coord))
    (recur : SudokuState → Coord → Except Unit (Bool × ℕ × SudokuState)) :
    List ℕ → SudokuState → Coord → ℕ → Except Unit (Bool × ℕ × SudokuState)
  | [], s, _, cnt => .ok (false, cnt, s)
  | idx :: rest, s, coord, cnt =>
    -- `reverse_index(index)` is `index + 1`
    match setCell N s coord (idx + 1) with
    | .error u => .error u
    | .ok (false, s₀) => solveLoop N findNext recur rest s₀ coord cnt
    | .ok (true, s₁) =>
      match findNext s₁ coord with
      | .error u => .error u
      | .ok none => .ok (true, cnt, s₁)
      | .ok (some next) =>
        match recur s₁ next with
        | .error u => .error u
        | .ok (solved, calls, s₂) =>
          if solved then .ok (true, cnt + calls, s₂)
          else
            match clearCell N s₂ coord with
            | .error u => .error u
            | .ok s₃ => solveLoop N findNext recur rest s₃ coord (cnt + calls)

/-- `SudokuBoard::solve_after`. -/
def solveAfter (N : ℕ)
    (findNext : SudokuState → Coord → Except Unit (Option Coord)) :
    ℕ → SudokuState → Coord → Except Unit (Bool × ℕ × SudokuState)
  | 0, _, _ => .error ()
  | fuel + 1, s, coord =>
    solveLoop N findNext (solveAfter N findNext fuel)
      (entryCandidates N s) s coord 1

/-- The `find_next_row` lambda of `solve_scanning_row`. -/
def findNextRow (N : ℕ) (s : SudokuState) (c : Coord) :
    Except Unit (Option Coord) :=
  findBlankFrom (N * N) s.board (stepRow (N * N)) (solveFuel N) c

/-- The `find_next_col` lambda of `solve_scanning_col`. -/
def findNextCol (N : ℕ) (s : SudokuState) (c : Coord) :
    Except Unit (Option Coord) :=
  findBlankFrom (N * N) s.board (stepCol (N * N)) (solveFuel N) c

/-- The `find_next_block` lambda of `solve_scanning_block`. -/
def findNextBlock (N : ℕ) (s : SudokuState) (c : Coord) :
    Except Unit (Option Coord) :=
  findBlankFrom (N * N) s.board (stepBlock N) (solveFuel N) c

/-- `SudokuBoard::solve_scanning_row`. -/
def solveScanningRow (N : ℕ) (s : SudokuState) :
    Except Unit (Bool × ℕ × SudokuState) :=
  match findNextRow N s (0, 0) with
  | .error u => .error u
  | .ok none => .ok (true, 0, s)
  | .ok (some start) => solveAfter N (findNextRow N) (solveFuel N) s start

/-- `SudokuBoard::solve_scanning_col`. -/
def solveScanningCol (N : ℕ) (s : SudokuState) :
    Except Unit (Bool × ℕ × SudokuState) :=
  match findNextCol N s (0, 0) with
  | .error u => .error u
  | .ok none => .ok (true, 0, s)
  | .ok (some start) => solveAfter N (findNextCol N) (solveFuel N) s start

/-- `SudokuBoard::solve_scanning_block`. -/
def solveScanningBlock (N : ℕ) (s : SudokuState) :
    Except Unit (Bool × ℕ × SudokuState) :=
  match findNextBlock N s (0, 0) with
  | .error u => .error u
  | .ok none => .ok (true, 0, s)
  | .ok (some start) => solveAfter N (findNextBlock N) (solveFuel N) s start

/-- `SudokuBoard::solve_heuristic` (the `guess_next` lambda ignores its
coordinate argument). -/
def solveHeuristic (N : ℕ) (s : SudokuState) :
    Except Unit (Bool × ℕ × SudokuState) :=
  match guessNext N s with
  | .error u => .error u
  | .ok none => .ok (true, 0, s)
  | .ok (some start) =>
    solveAfter N (fun st _ => guessNext N st) (solveFuel N) s start

/-- The four public solve entry points. -/
inductive Variant
  | row
  | col
  | block
  | heuristic

/-- Dispatch to one of the four `solve_*` member functions. -/
def runSolve (N : ℕ) : Variant → SudokuState → Except Unit (Bool × ℕ × SudokuState)
  | .row => solveScanningRow N
  | .col => solveScanningCol N
  | .block => solveScanningBlock N
  | .heuristic => solveHeuristic N

/-! ### Soundness of the solver (claim C1) -/

theorem mem_insertSorted {key : ℕ → ℕ} {x a : ℕ} :
    ∀ {l : List ℕ}, a ∈ insertSorted key x l ↔ a = x ∨ a ∈ l := by
  intro l
  induction l with
  | nil => simp [insertSorted]
  | cons y ys ih =>
    unfold insertSorted
    split
    · simp
    · rw [List.mem_cons, ih]
      simp only [List.mem_cons]
      tauto

theorem mem_sortByKey {key : ℕ → ℕ} {a : ℕ} :
    ∀ {l : List ℕ}, a ∈ sortByKey key l ↔ a ∈ l := by
  intro l
  induction l with
  | nil => simp [sortByKey]
  | cons y ys ih =>
    unfold sortByKey
    rw [mem_insertSorted, ih, List.mem_cons]

theorem entryCandidates_lt {N : ℕ} {s : SudokuState} {i : ℕ}
    (h : i ∈ entryCandidates N s) : i < N * N := by
  rw [entryCandidates, mem_sortByKey, List.mem_range] at h
  exact h

theorem findBlankFrom_ok_some {D : ℕ} {board : ℕ → ℕ → ℕ}
    {step : Coord → Option Coord} {fuel : ℕ} {c n : Coord}
    (h : findBlankFrom D board step fuel c = .ok (some n)) :
    n.1 < D ∧ n.2 < D ∧ board n.1 n.2 = 0 := by
  induction fuel generalizing c with
  | zero => cases h
  | succ fuel ih =>
    unfold findBlankFrom at h
    split at h
    · next hin =>
      split at h
      · next hb =>
        injection h with h
        injection h with h
        subst h
        exact ⟨hin.1, hin.2, hb⟩
      · next hb =>
        split at h
        · injection h with h; cases h
        · exact ih h
    · cases h

/-- Specification bundle for a scan step function with respect to a rank
function: in-range successors increase the rank by one and stay in range, a
`none` answer happens only at a maximal-rank cell, and ranks identify in-range
cells. -/
def StepSpec (D : ℕ) (step : Coord → Option Coord) (rank : Coord → ℕ) : Prop :=
  (∀ p, p.1 < D → p.2 < D →
    (∀ q, step p = some q → q.1 < D ∧ q.2 < D ∧ rank q = rank p + 1) ∧
    (step p = none → ∀ q, q.1 < D → q.2 < D → rank q ≤ rank p)) ∧
  (∀ p q, p.1 < D → p.2 < D → q.1 < D → q.2 < D → rank p = rank q → p = q)

/-- A `none` answer from the blank scan means every cell at or after the start
(in rank order) is filled. -/
theorem findBlankFrom_ok_none {D : ℕ} {board : ℕ → ℕ → ℕ}
    {step : Coord → Option Coord} {rank : Coord → ℕ}
    (hspec : StepSpec D step rank) {fuel : ℕ} {c : Coord}
    (hin : c.1 < D ∧ c.2 < D)
    (h : findBlankFrom D board step fuel c = .ok none) :
    ∀ p, p.1 < D → p.2 < D → rank c ≤ rank p → board p.1 p.2 ≠ 0 := by
  induction fuel generalizing c with
  | zero => cases h
  | succ fuel ih =>
    unfold findBlankFrom at h
    rw [if_pos hin] at h
    split at h
    · injection h with h; cases h
    · next hbne =>
      split at h
      · next hnone =>
        intro p hp1 hp2 hrank
        have hle := (hspec.1 c hin.1 hin.2).2 hnone p hp1 hp2
        have : p = c := hspec.2 p c hp1 hp2 hin.1 hin.2 (by omega)
        rw [this]
        exact hbne
      · next c' hsome =>
        obtain ⟨hc1, hc2, hrk⟩ := (hspec.1 c hin.1 hin.2).1 c' hsome
        intro p hp1 hp2 hrank
        rcases Nat.eq_or_lt_of_le hrank with heq | hlt
        · have : p = c := hspec.2 p c hp1 hp2 hin.1 hin.2 heq.symm
          rw [this]
          exact hbne
        · exact ih ⟨hc1, hc2⟩ h p hp1 hp2 (by omega)

/-- A `some` answer from the blank scan is the first blank cell at or after
the start in rank order. -/
theorem findBlankFrom_ok_some_min {D : ℕ} {board : ℕ → ℕ → ℕ}
    {step : Coord → Option Coord} {rank : Coord → ℕ}
    (hspec : StepSpec D step rank) {fuel : ℕ} {c n : Coord}
    (hin : c.1 < D ∧ c.2 < D)
    (h : findBlankFrom D board step fuel c = .ok (some n)) :
    n.1 < D ∧ n.2 < D ∧ board n.1 n.2 = 0 ∧ rank c ≤ rank n ∧
      ∀ p, p.1 < D → p.2 < D → board p.1 p.2 = 0 → rank c ≤ rank p →
        rank n ≤ rank p := by
  induction fuel generalizing c with
  | zero => cases h
  | succ fuel ih =>
    unfold findBlankFrom at h
    rw [if_pos hin] at h
    split at h
    · next hb =>
      injection h with h
      injection h with h
      subst h
      exact ⟨hin.1, hin.2, hb, le_rfl, fun p _ _ _ hp => hp⟩
    · next hbne =>
      split at h
      · injection h with h; cases h
      · next c' hsome =>
        obtain ⟨hc1, hc2, hrk⟩ := (hspec.1 c hin.1 hin.2).1 c' hsome
        obtain ⟨hn1, hn2, hnb, hcn, hmin⟩ := ih ⟨hc1, hc2⟩ h
        refine ⟨hn1, hn2, hnb, by omega, ?_⟩
        intro p hp1 hp2 hpb hrank
        rcases Nat.eq_or_lt_of_le hrank with heq | hlt
        · have : p = c := hspec.2 p c hp1 hp2 hin.1 hin.2 heq.symm
          rw [this] at hpb
          exact absurd hpb hbne
        · exact hmin p hp1 hp2 hpb (by omega)

/-- Given enough fuel (`D * D + 1` always suffices from an in-range start),
the blank scan never exhausts its fuel. -/
theorem findBlankFrom_ok_of_fuel {D : ℕ} {board : ℕ → ℕ → ℕ}
    {step : Coord → Option Coord} {rank : Coord → ℕ}
    (hspec : StepSpec D step rank)
    (hbound : ∀ p, p.1 < D → p.2 < D → rank p < D * D) :
    ∀ {fuel : ℕ} {c : Coord}, c.1 < D → c.2 < D → D * D ≤ fuel + rank c →
    ∃ res, findBlankFrom D board step fuel c = .ok res := by
  intro fuel
  induction fuel with
  | zero =>
    intro c h1 h2 hf
    have := hbound c h1 h2
    omega
  | succ fuel ih =>
    intro c h1 h2 hf
    unfold findBlankFrom
    rw [if_pos ⟨h1, h2⟩]
    split
    · exact ⟨some c, rfl⟩
    · split
      · exact ⟨none, rfl⟩
      · next c' hsome =>
        obtain ⟨hc1, hc2, hrk⟩ := (hspec.1 c h1 h2).1 c' hsome
        exact ih hc1 hc2 (by omega)

/-- Row-major rank of a cell. -/
def rankRow (D : ℕ) (c : Coord) : ℕ := c.1 * D + c.2

/-- Column-major rank of a cell. -/
def rankCol (D : ℕ) (c : Coord) : ℕ := c.2 * D + c.1

theorem rankRow_lt {D : ℕ} {p : Coord} (h1 : p.1 < D) (h2 : p.2 < D) :
    rankRow D p < D * D := by
  unfold rankRow
  have hmul : (p.1 + 1) * D ≤ D * D := Nat.mul_le_mul_right D (by omega)
  have hexp : (p.1 + 1) * D = p.1 * D + D := by ring
  omega

theorem rankCol_lt {D : ℕ} {p : Coord} (h1 : p.1 < D) (h2 : p.2 < D) :
    rankCol D p < D * D := by
  unfold rankCol
  have hmul : (p.2 + 1) * D ≤ D * D := Nat.mul_le_mul_right D (by omega)
  have hexp : (p.2 + 1) * D = p.2 * D + D := by ring
  omega

theorem stepSpec_row (D : ℕ) : StepSpec D (stepRow D) (rankRow D) := by
  constructor
  · intro p h1 h2
    constructor
    · intro q hq
      unfold stepRow at hq
      split at hq
      · next hge =>
        split at hq
        · cases hq
        · next hne =>
          injection hq with hq
          subst hq
          have hexp : (p.1 + 1) * D = p.1 * D + D := by ring
          exact ⟨by omega, by omega, by unfold rankRow; dsimp only; omega⟩
      · next hlt =>
        injection hq with hq
        subst hq
        exact ⟨by omega, by omega, by unfold rankRow; dsimp only; omega⟩
    · intro hnone q hq1 hq2
      unfold stepRow at hnone
      split at hnone
      · split at hnone
        · next hEnd =>
          have hmul : q.1 * D ≤ p.1 * D := Nat.mul_le_mul_right D (by omega)
          unfold rankRow
          omega
        · cases hnone
      · cases hnone
  · intro p q hp1 hp2 hq1 hq2 heq
    unfold rankRow at heq
    rcases lt_trichotomy p.1 q.1 with hlt | heq1 | hgt
    · have hmul : (p.1 + 1) * D ≤ q.1 * D := Nat.mul_le_mul_right D (by omega)
      have hexp : (p.1 + 1) * D = p.1 * D + D := by ring
      omega
    · rw [heq1] at heq
      exact Prod.ext_iff.mpr ⟨heq1, by omega⟩
    · have hmul : (q.1 + 1) * D ≤ p.1 * D := Nat.mul_le_mul_right D (by omega)
      have hexp : (q.1 + 1) * D = q.1 * D + D := by ring
      omega

theorem stepSpec_col (D : ℕ) : StepSpec D (stepCol D) (rankCol D) := by
  constructor
  · intro p h1 h2
    constructor
    · intro q hq
      unfold stepCol at hq
      split at hq
      · next t ht =>
        injection hq with hq
        subst hq
        obtain ⟨ht1, ht2, hrk⟩ := ((stepSpec_row D).1 (p.2, p.1) h2 h1).1 t ht
        refine ⟨ht2, ht1, ?_⟩
        unfold rankCol
        unfold rankRow at hrk
        dsimp only at hrk ⊢
        omega
      · cases hq
    · intro hnone q hq1 hq2
      unfold stepCol at hnone
      split at hnone
      · cases hnone
      · next ht =>
        have := ((stepSpec_row D).1 (p.2, p.1) h2 h1).2 ht (q.2, q.1) hq2 hq1
        unfold rankRow at this
        unfold rankCol
        dsimp only at this ⊢
        omega
  · intro p q hp1 hp2 hq1 hq2 heq
    unfold rankCol at heq
    have := (stepSpec_row D).2 (p.2, p.1) (q.2, q.1) hp2 hp1 hq2 hq1
      (by unfold rankRow; dsimp only; omega)
    have h1 : p.2 = q.2 := congrArg Prod.fst this
    have h2 : p.1 = q.1 := congrArg Prod.snd this
    exact Prod.ext_iff.mpr ⟨h2, h1⟩

theorem divmod_char (a q r n : ℕ) (ha : a = q * n + r) (hr : r < n) :
    a / n = q ∧ a % n = r := by
  subst ha
  have hn : 0 < n := by omega
  constructor
  · rw [Nat.add_comm, Nat.add_mul_div_right r q hn, Nat.div_eq_of_lt hr]
    omega
  · rw [Nat.add_comm, Nat.add_mul_mod_self_right, Nat.mod_eq_of_lt hr]

/-- Block-scan rank of a cell: blocks in row-major order, cells row-major
within each block. -/
def rankBlock (N : ℕ) (c : Coord) : ℕ :=
  blockIndexOf N c * (N * N) + ((c.1 % N) * N + c.2 % N)

theorem rankBlock_lt {N : ℕ} {p : Coord} (h1 : p.1 < N * N) (h2 : p.2 < N * N) :
    rankBlock N p < N * N * (N * N) := by
  have hN : 0 < N := by
    rcases Nat.eq_zero_or_pos N with hz | h
    · subst hz; simp at h1
    · exact h
  obtain ⟨m, rfl⟩ : ∃ m, N = m + 1 := ⟨N - 1, by omega⟩
  have ha : p.1 / (m + 1) ≤ m := by have := Nat.div_lt_of_lt_mul h1; omega
  have hb : p.2 / (m + 1) ≤ m := by have := Nat.div_lt_of_lt_mul h2; omega
  have hc : p.1 % (m + 1) ≤ m := by
    have := Nat.mod_lt p.1 (show 0 < m + 1 by omega); omega
  have hd : p.2 % (m + 1) ≤ m := by
    have := Nat.mod_lt p.2 (show 0 < m + 1 by omega); omega
  unfold rankBlock blockIndexOf
  have h5 : ((m + 1) * (p.1 / (m + 1)) + p.2 / (m + 1)) * ((m + 1) * (m + 1))
      ≤ ((m + 1) * m + m) * ((m + 1) * (m + 1)) := by
    refine Nat.mul_le_mul_right _ ?_
    have h3 : (m + 1) * (p.1 / (m + 1)) ≤ (m + 1) * m :=
      Nat.mul_le_mul_left (m + 1) ha
    omega
  have h6 : (p.1 % (m + 1)) * (m + 1) ≤ m * (m + 1) :=
    Nat.mul_le_mul_right (m + 1) hc
  have h7 : ((m + 1) * m + m) * ((m + 1) * (m + 1)) + (m * (m + 1) + m) + 1
      = (m + 1) * (m + 1) * ((m + 1) * (m + 1)) := by ring
  omega

theorem stepSpec_block (N : ℕ) : StepSpec (N * N) (stepBlock N) (rankBlock N) := by
  constructor
  · intro p h1 h2
    have hN : 0 < N := by
      rcases Nat.eq_zero_or_pos N with hz | h
      · subst hz; simp at h1
      · exact h
    obtain ⟨m, rfl⟩ : ∃ m, N = m + 1 := ⟨N - 1, by omega⟩
    have e1 := Nat.div_add_mod p.1 (m + 1)
    have e2 := Nat.div_add_mod p.2 (m + 1)
    have hr1 : p.1 % (m + 1) < m + 1 := Nat.mod_lt p.1 (by omega)
    have hr2 : p.2 % (m + 1) < m + 1 := Nat.mod_lt p.2 (by omega)
    have hq1d : p.1 / (m + 1) < m + 1 := Nat.div_lt_of_lt_mul h1
    have hq2d : p.2 / (m + 1) < m + 1 := Nat.div_lt_of_lt_mul h2
    have key1 : p.1 + 1 = (p.1 / (m + 1)) * (m + 1) + (p.1 % (m + 1) + 1) := by
      have hcomm : (m + 1) * (p.1 / (m + 1)) = (p.1 / (m + 1)) * (m + 1) :=
        Nat.mul_comm _ _
      omega
    have key2 : p.2 + 1 = (p.2 / (m + 1)) * (m + 1) + (p.2 % (m + 1) + 1) := by
      have hcomm : (m + 1) * (p.2 / (m + 1)) = (p.2 / (m + 1)) * (m + 1) :=
        Nat.mul_comm _ _
      omega
    constructor
    · intro q hq
      unfold stepBlock at hq
      split at hq
      · next hc1 =>
        injection hq with hq
        subst hq
        have hlt : p.2 % (m + 1) + 1 < m + 1 := by
          by_contra hcon
          have hEq : p.2 % (m + 1) + 1 = m + 1 := by omega
          have key2' : p.2 + 1 = (p.2 / (m + 1) + 1) * (m + 1) + 0 := by
            have hx : (p.2 / (m + 1) + 1) * (m + 1)
                = (p.2 / (m + 1)) * (m + 1) + (m + 1) := by ring
            omega
          have := (divmod_char (p.2 + 1) (p.2 / (m + 1) + 1) 0 (m + 1) key2'
            (by omega)).2
          exact hc1 this
        have hd2 := divmod_char (p.2 + 1) (p.2 / (m + 1)) (p.2 % (m + 1) + 1)
          (m + 1) key2 hlt
        refine ⟨h1, ?_, ?_⟩
        · have hne : p.2 + 1 ≠ (m + 1) * (m + 1) := by
            intro hcontra
            have h0 : ((m + 1) * (m + 1)) % (m + 1) = 0 :=
              (divmod_char ((m + 1) * (m + 1)) (m + 1) 0 (m + 1) (by ring)
                (by omega)).2
            rw [hcontra] at hc1
            exact hc1 h0
          omega
        · unfold rankBlock blockIndexOf
          dsimp only
          rw [hd2.1, hd2.2]
          omega
      · next hc1 =>
        have hc1' : (p.2 + 1) % (m + 1) = 0 := not_not.mp hc1
        have hcol : p.2 % (m + 1) + 1 = m + 1 := by
          rcases lt_or_ge (p.2 % (m + 1) + 1) (m + 1) with hlt | hge
          · have := (divmod_char (p.2 + 1) (p.2 / (m + 1)) (p.2 % (m + 1) + 1)
              (m + 1) key2 hlt).2
            omega
          · omega
        have hcolm : p.2 % (m + 1) = m := by omega
        split at hq
        · next hc2 =>
          injection hq with hq
          subst hq
          have hrowlt : p.1 % (m + 1) + 1 < m + 1 := by
            by_contra hcon
            have key1' : p.1 + 1 = (p.1 / (m + 1) + 1) * (m + 1) + 0 := by
              have hx : (p.1 / (m + 1) + 1) * (m + 1)
                  = (p.1 / (m + 1)) * (m + 1) + (m + 1) := by ring
              omega
            have := (divmod_char (p.1 + 1) (p.1 / (m + 1) + 1) 0 (m + 1) key1'
              (by omega)).2
            exact hc2 this
          have hd1 := divmod_char (p.1 + 1) (p.1 / (m + 1)) (p.1 % (m + 1) + 1)
            (m + 1) key1 hrowlt
          have hsub : p.2 + 1 - (m + 1) = (p.2 / (m + 1)) * (m + 1) := by omega
          have hd2 := divmod_char (p.2 + 1 - (m + 1)) (p.2 / (m + 1)) 0 (m + 1)
            (by omega) (by omega)
          refine ⟨?_, ?_, ?_⟩
          · have hne : p.1 + 1 ≠ (m + 1) * (m + 1) := by
              intro hcontra
              have h0 : ((m + 1) * (m + 1)) % (m + 1) = 0 :=
                (divmod_char ((m + 1) * (m + 1)) (m + 1) 0 (m + 1) (by ring)
                  (by omega)).2
              rw [hcontra] at hc2
              exact hc2 h0
            omega
          · omega
          · unfold rankBlock blockIndexOf
            dsimp only
            rw [hd1.1, hd1.2, hd2.1, hd2.2, hcolm]
            have hexp : (p.1 % (m + 1) + 1) * (m + 1)
                = (p.1 % (m + 1)) * (m + 1) + (m + 1) := by ring
            omega
        · next hc2 =>
          have hc2' : (p.1 + 1) % (m + 1) = 0 := not_not.mp hc2
          have hrow : p.1 % (m + 1) + 1 = m + 1 := by
            rcases lt_or_ge (p.1 % (m + 1) + 1) (m + 1) with hlt | hge
            · have := (divmod_char (p.1 + 1) (p.1 / (m + 1)) (p.1 % (m + 1) + 1)
                (m + 1) key1 hlt).2
              omega
            · omega
          have hrowm : p.1 % (m + 1) = m := by omega
          split at hq
          · next hc3 =>
            split at hq
            · cases hq
            · next hc4 =>
              injection hq with hq
              subst hq
              have hdvd : (m + 1) * (m + 1) ∣ p.2 + 1 :=
                Nat.dvd_of_mod_eq_zero hc3
              have hle : (m + 1) * (m + 1) ≤ p.2 + 1 :=
                Nat.le_of_dvd (by omega) hdvd
              have hp2 : p.2 + 1 = (m + 1) * (m + 1) := by omega
              have hy : m * (m + 1) + m + 1 = (m + 1) * (m + 1) := by ring
              have hd2 := divmod_char p.2 m m (m + 1) (by omega) (by omega)
              have key1' : p.1 + 1 = (p.1 / (m + 1) + 1) * (m + 1) + 0 := by
                have hx : (p.1 / (m + 1) + 1) * (m + 1)
                    = (p.1 / (m + 1)) * (m + 1) + (m + 1) := by ring
                omega
              have hd1 := divmod_char (p.1 + 1) (p.1 / (m + 1) + 1) 0 (m + 1)
                key1' (by omega)
              refine ⟨by omega, by omega, ?_⟩
              unfold rankBlock blockIndexOf
              dsimp only
              rw [hd1.1, hd1.2, hd2.1, hcolm, hrowm, Nat.zero_div, Nat.zero_mod]
              ring
          · next hc3 =>
            injection hq with hq
            subst hq
            have hsub1 : p.1 + 1 - (m + 1) = (p.1 / (m + 1)) * (m + 1) := by
              omega
            have hd1 := divmod_char (p.1 + 1 - (m + 1)) (p.1 / (m + 1)) 0 (m + 1)
              (by omega) (by omega)
            have key2' : p.2 + 1 = (p.2 / (m + 1) + 1) * (m + 1) + 0 := by
              have hx : (p.2 / (m + 1) + 1) * (m + 1)
                  = (p.2 / (m + 1)) * (m + 1) + (m + 1) := by ring
              omega
            have hd2 := divmod_char (p.2 + 1) (p.2 / (m + 1) + 1) 0 (m + 1)
              key2' (by omega)
            have hcb : p.2 / (m + 1) + 1 < m + 1 := by
              by_contra hcon
              have hEq : p.2 / (m + 1) + 1 = m + 1 := by omega
              rw [hEq] at key2'
              have hval : p.2 + 1 = (m + 1) * (m + 1) := by omega
              rw [hval] at hc3
              exact hc3 (Nat.mod_self ((m + 1) * (m + 1)))
            refine ⟨by omega, ?_, ?_⟩
            · have hub : (p.2 / (m + 1) + 1) * (m + 1) ≤ m * (m + 1) :=
                Nat.mul_le_mul_right (m + 1) (by omega)
              have hx2 : m * (m + 1) + (m + 1) = (m + 1) * (m + 1) := by ring
              omega
            · unfold rankBlock blockIndexOf
              dsimp only
              rw [hd1.1, hd1.2, hd2.1, hd2.2, hcolm, hrowm]
              ring
    · intro hnone q hq1 hq2
      unfold stepBlock at hnone
      split at hnone
      · cases hnone
      · next hc1 =>
        have hc1' : (p.2 + 1) % (m + 1) = 0 := not_not.mp hc1
        have hcol : p.2 % (m + 1) + 1 = m + 1 := by
          rcases lt_or_ge (p.2 % (m + 1) + 1) (m + 1) with hlt | hge
          · have := (divmod_char (p.2 + 1) (p.2 / (m + 1)) (p.2 % (m + 1) + 1)
              (m + 1) key2 hlt).2
            omega
          · omega
        have hcolm : p.2 % (m + 1) = m := by omega
        split at hnone
        · cases hnone
        · next hc2 =>
          have hc2' : (p.1 + 1) % (m + 1) = 0 := not_not.mp hc2
          have hrow : p.1 % (m + 1) + 1 = m + 1 := by
            rcases lt_or_ge (p.1 % (m + 1) + 1) (m + 1) with hlt | hge
            · have := (divmod_char (p.1 + 1) (p.1 / (m + 1)) (p.1 % (m + 1) + 1)
                (m + 1) key1 hlt).2
              omega
            · omega
          have hrowm : p.1 % (m + 1) = m := by omega
          split at hnone
          · next hc3 =>
            split at hnone
            · next hc4 =>
              have hdvd : (m + 1) * (m + 1) ∣ p.2 + 1 :=
                Nat.dvd_of_mod_eq_zero hc3
              have hle : (m + 1) * (m + 1) ≤ p.2 + 1 :=
                Nat.le_of_dvd (by omega) hdvd
              have hy : m * (m + 1) + m + 1 = (m + 1) * (m + 1) := by ring
              have hd2v := (divmod_char p.2 m m (m + 1) (by omega) (by omega)).1
              have hd1v := (divmod_char p.1 m m (m + 1) (by omega) (by omega)).1
              have hA : q.1 / (m + 1) ≤ m := by
                have := Nat.div_lt_of_lt_mul hq1; omega
              have hB : q.2 / (m + 1) ≤ m := by
                have := Nat.div_lt_of_lt_mul hq2; omega
              have hC : q.1 % (m + 1) ≤ m := by
                have := Nat.mod_lt q.1 (show 0 < m + 1 by omega); omega
              have hD2 : q.2 % (m + 1) ≤ m := by
                have := Nat.mod_lt q.2 (show 0 < m + 1 by omega); omega
              unfold rankBlock blockIndexOf
              rw [hd1v, hd2v, hcolm, hrowm]
              have hm2 : ((m + 1) * (q.1 / (m + 1)) + q.2 / (m + 1))
                    * ((m + 1) * (m + 1))
                  ≤ ((m + 1) * m + m) * ((m + 1) * (m + 1)) := by
                refine Nat.mul_le_mul_right _ ?_
                have := Nat.mul_le_mul_left (m + 1) hA
                omega
              have hm3 : (q.1 % (m + 1)) * (m + 1) ≤ m * (m + 1) :=
                Nat.mul_le_mul_right (m + 1) hC
              omega
            · cases hnone
          · cases hnone
  · intro p q hp1 hp2 hq1 hq2 heq
    have hN : 0 < N := by
      rcases Nat.eq_zero_or_pos N with hz | h
      · subst hz; simp at hp1
      · exact h
    obtain ⟨m, rfl⟩ : ∃ m, N = m + 1 := ⟨N - 1, by omega⟩
    have hip : (p.1 % (m + 1)) * (m + 1) + p.2 % (m + 1) < (m + 1) * (m + 1) := by
      have h3 := Nat.mod_lt p.1 (show 0 < m + 1 by omega)
      have h4 := Nat.mod_lt p.2 (show 0 < m + 1 by omega)
      have h5 : (p.1 % (m + 1)) * (m + 1) ≤ m * (m + 1) :=
        Nat.mul_le_mul_right (m + 1) (by omega)
      have h6 : m * (m + 1) + (m + 1) = (m + 1) * (m + 1) := by ring
      omega
    have hiq : (q.1 % (m + 1)) * (m + 1) + q.2 % (m + 1) < (m + 1) * (m + 1) := by
      have h3 := Nat.mod_lt q.1 (show 0 < m + 1 by omega)
      have h4 := Nat.mod_lt q.2 (show 0 < m + 1 by omega)
      have h5 : (q.1 % (m + 1)) * (m + 1) ≤ m * (m + 1) :=
        Nat.mul_le_mul_right (m + 1) (by omega)
      have h6 : m * (m + 1) + (m + 1) = (m + 1) * (m + 1) := by ring
      omega
    have hp := divmod_char (rankBlock (m + 1) p) (blockIndexOf (m + 1) p)
      ((p.1 % (m + 1)) * (m + 1) + p.2 % (m + 1)) ((m + 1) * (m + 1)) rfl hip
    have hq := divmod_char (rankBlock (m + 1) q) (blockIndexOf (m + 1) q)
      ((q.1 % (m + 1)) * (m + 1) + q.2 % (m + 1)) ((m + 1) * (m + 1)) rfl hiq
    rw [heq] at hp
    have hB : blockIndexOf (m + 1) p = blockIndexOf (m + 1) q := by omega
    have hI : (p.1 % (m + 1)) * (m + 1) + p.2 % (m + 1)
        = (q.1 % (m + 1)) * (m + 1) + q.2 % (m + 1) := by omega
    have hp2d : p.2 / (m + 1) < m + 1 := Nat.div_lt_of_lt_mul hp2
    have hq2d : q.2 / (m + 1) < m + 1 := Nat.div_lt_of_lt_mul hq2
    have hbp := divmod_char (blockIndexOf (m + 1) p) (p.1 / (m + 1))
      (p.2 / (m + 1)) (m + 1) (by unfold blockIndexOf; ring) hp2d
    have hbq := divmod_char (blockIndexOf (m + 1) q) (q.1 / (m + 1))
      (q.2 / (m + 1)) (m + 1) (by unfold blockIndexOf; ring) hq2d
    rw [hB] at hbp
    have hmp := divmod_char ((p.1 % (m + 1)) * (m + 1) + p.2 % (m + 1))
      (p.1 % (m + 1)) (p.2 % (m + 1)) (m + 1) rfl (Nat.mod_lt p.2 (by omega))
    have hmq := divmod_char ((q.1 % (m + 1)) * (m + 1) + q.2 % (m + 1))
      (q.1 % (m + 1)) (q.2 % (m + 1)) (m + 1) rfl (Nat.mod_lt q.2 (by omega))
    rw [hI] at hmp
    have hd1 : p.1 / (m + 1) = q.1 / (m + 1) := by omega
    have hd2 : p.2 / (m + 1) = q.2 / (m + 1) := by omega
    have hm1 : p.1 % (m + 1) = q.1 % (m + 1) := by omega
    have hm2 : p.2 % (m + 1) = q.2 % (m + 1) := by omega
    have e1p := Nat.div_add_mod p.1 (m + 1)
    have e1q := Nat.div_add_mod q.1 (m + 1)
    have e2p := Nat.div_add_mod p.2 (m + 1)
    have e2q := Nat.div_add_mod q.2 (m + 1)
    refine Prod.ext_iff.mpr ⟨?_, ?_⟩
    · have hx : (m + 1) * (p.1 / (m + 1)) = (m + 1) * (q.1 / (m + 1)) := by
        rw [hd1]
      omega
    · have hx : (m + 1) * (p.2 / (m + 1)) = (m + 1) * (q.2 / (m + 1)) := by
        rw [hd2]
      omega

/-- Result shape of the `max_bounded` loop: either the running maximum is
returned unchanged, or the result is an in-bounds element strictly below the
cap, paired with its index. -/
theorem maxBoundedGo_spec (cap : ℕ) :
    ∀ (l : List ℕ) (cur : ℕ × ℕ) (i : ℕ),
    maxBoundedGo cap cur i l = cur ∨
    ((maxBoundedGo cap cur i l).2 < cap ∧ ∃ j, j < l.length ∧
      (maxBoundedGo cap cur i l).1 = i + j ∧
      l.get? j = some (maxBoundedGo cap cur i l).2) := by
  intro l
  induction l with
  | nil => intro cur i; left; rfl
  | cons x xs ih =>
    intro cur i
    unfold maxBoundedGo
    split
    · rcases ih cur (i + 1) with hl | ⟨hlt, j, hj, hi, hg⟩
      · left; exact hl
      · right
        refine ⟨hlt, j + 1, ?_, ?_, ?_⟩
        · simp only [List.length_cons]; omega
        · omega
        · simpa using hg
    · split
      · rcases ih (i, x) (i + 1) with hl | ⟨hlt, j, hj, hi, hg⟩
        · right
          rw [hl]
          refine ⟨?_, 0, ?_, ?_, ?_⟩
          · next hcap _ => exact not_not.mp hcap
          · simp
          · simp
          · simp
        · right
          refine ⟨hlt, j + 1, ?_, ?_, ?_⟩
          · simp only [List.length_cons]; omega
          · omega
          · simpa using hg
      · rcases ih cur (i + 1) with hl | ⟨hlt, j, hj, hi, hg⟩
        · left; exact hl
        · right
          refine ⟨hlt, j + 1, ?_, ?_, ?_⟩
          · simp only [List.length_cons]; omega
          · omega
          · simpa using hg

/-- `promising_index` answers `nullopt` only on a zero-dimensional board. -/
theorem promisingIndex_none_dim {D : ℕ} {counts : ℕ → ℕ}
    (h : promisingIndex D counts = none) : D = 0 := by
  unfold promisingIndex maxBounded at h
  split at h
  · next heq =>
    have hlen := congrArg List.length heq
    simpa using hlen
  · cases h

/-- A `promising_index` answer is either the first count (the running maximum
is initialised to the front element even when it is not below the cap) or an
actual count strictly below the cap together with its index. -/
theorem promisingIndex_spec {D : ℕ} {counts : ℕ → ℕ} {br : ℕ × ℕ}
    (h : promisingIndex D counts = some br) :
    br = (0, counts 0) ∨ (br.2 < D ∧ br.1 < D ∧ br.2 = counts br.1) := by
  unfold promisingIndex maxBounded at h
  split at h
  · cases h
  · next x xs heq =>
    injection h with h
    subst h
    have hlen := congrArg List.length heq
    simp only [List.length_map, List.length_range, List.length_cons] at hlen
    rcases maxBoundedGo_spec D xs (0, x) 1 with hl | ⟨hlt, j, hj, hi, hg⟩
    · rw [hl]
      left
      have h0 := congrArg (fun l => List.get? l 0) heq
      simp only [List.get?_map, List.get?_range (show 0 < D by omega),
        Option.map_some', List.get?_cons_zero] at h0
      injection h0 with h0
      exact Prod.ext_iff.mpr ⟨rfl, h0.symm⟩
    · right
      have hx := congrArg (fun l => List.get? l (j + 1)) heq
      simp only [List.get?_map, List.get?_range (show j + 1 < D by omega),
        Option.map_some', List.get?_cons_succ] at hx
      rw [hg] at hx
      injection hx with hx
      refine ⟨hlt, by omega, ?_⟩
      rw [hi, show 1 + j = j + 1 from by omega]
      exact hx.symm

/-- If the cached count of set bits in a row is below the dimension, the row
still contains a blank cell (pigeonhole via the row-consistency and
row-uniqueness invariants). -/
theorem row_blank_of_bitCard_lt {N : ℕ} {s : SudokuState} (hwf : TableWF N s)
    {r : ℕ} (hr : r < N * N)
    (hcard : bitCard (N * N) s.conflicts.rows.table r < N * N) :
    ∃ k, k < N * N ∧ s.board r k = 0 := by
  by_contra hno
  push_neg at hno
  have hsub : (Finset.range (N * N)).image (fun k => s.board r k - 1)
      ⊆ (Finset.range (N * N)).filter
        (fun v => s.conflicts.rows.table r v = true) := by
    intro v hv
    simp only [Finset.mem_image, Finset.mem_range] at hv
    obtain ⟨k, hk, hvk⟩ := hv
    have hnz := hno k hk
    have hle := hwf.range r k hr hk
    simp only [Finset.mem_filter, Finset.mem_range]
    refine ⟨by omega, ?_⟩
    exact (hwf.rowIff r v hr (by omega)).mpr ⟨k, hk, by omega⟩
  have hinj : Set.InjOn (fun k => s.board r k - 1)
      ↑(Finset.range (N * N)) := by
    intro a ha b hb hEq
    simp only [Finset.coe_range, Set.mem_Iio] at ha hb
    have hna := hno a ha
    have hnb := hno b hb
    simp only at hEq
    exact hwf.rowUniq r a b hr ha hb hna (by omega)
  have hcardEq := Finset.card_image_of_injOn hinj
  have hle := Finset.card_le_card hsub
  rw [hcardEq, Finset.card_range] at hle
  unfold bitCard at hcard
  omega

/-- Column analogue of `row_blank_of_bitCard_lt`. -/
theorem col_blank_of_bitCard_lt {N : ℕ} {s : SudokuState} (hwf : TableWF N s)
    {c : ℕ} (hc : c < N * N)
    (hcard : bitCard (N * N) s.conflicts.cols.table c < N * N) :
    ∃ k, k < N * N ∧ s.board k c = 0 := by
  by_contra hno
  push_neg at hno
  have hsub : (Finset.range (N * N)).image (fun k => s.board k c - 1)
      ⊆ (Finset.range (N * N)).filter
        (fun v => s.conflicts.cols.table c v = true) := by
    intro v hv
    simp only [Finset.mem_image, Finset.mem_range] at hv
    obtain ⟨k, hk, hvk⟩ := hv
    have hnz := hno k hk
    have hle := hwf.range k c hk hc
    simp only [Finset.mem_filter, Finset.mem_range]
    refine ⟨by omega, ?_⟩
    exact (hwf.colIff c v hc (by omega)).mpr ⟨k, hk, by omega⟩
  have hinj : Set.InjOn (fun k => s.board k c - 1)
      ↑(Finset.range (N * N)) := by
    intro a ha b hb hEq
    simp only [Finset.coe_range, Set.mem_Iio] at ha hb
    have hna := hno a ha
    have hnb := hno b hb
    simp only at hEq
    exact hwf.colUniq c a b hc ha hb hna (by omega)
  have hcardEq := Finset.card_image_of_injOn hinj
  have hle := Finset.card_le_card hsub
  rw [hcardEq, Finset.card_range] at hle
  unfold bitCard at hcard
  omega

/-- A cell produced by `guess_next` is an in-range blank. -/
theorem guessNext_some {N : ℕ} {s : SudokuState} {q : Coord}
    (h : guessNext N s = .ok (some q)) :
    (q.1 < N * N ∧ q.2 < N * N) ∧ s.board q.1 q.2 = 0 := by
  unfold guessNext at h
  split at h
  · injection h with h; cases h
  · split at h
    · cases h
    · split at h
      · obtain ⟨h1, h2, hb⟩ := findBlankFrom_ok_some h
        exact ⟨⟨h1, h2⟩, hb⟩
      · obtain ⟨h1, h2, hb⟩ := findBlankFrom_ok_some h
        exact ⟨⟨h1, h2⟩, hb⟩

/-! ### Claim C5: the cell chosen by the heuristic -/

/-- `set_cell` with the returned flag discarded (the pattern used by
`operator>>` and by test setups): on failure the state is unchanged. -/
def setCellD (N : ℕ) (s : SudokuState) (c : Coord) (e : ℕ) : SudokuState :=
  match setCell N s c e with
  | .ok (_, t) => t
  | .error _ => s

/-- Apply a list of `set_cell` calls, discarding the flags. -/
def applySets (N : ℕ) : SudokuState → List (Coord × ℕ) → SudokuState
  | s, [] => s
  | s, (c, e) :: rest => applySets N (setCellD N s c e) rest

theorem reachable_setCellD {N : ℕ} {s : SudokuState} (h : Reachable N s)
    {c : Coord} {e : ℕ} (he : e < 2 ^ 32) :
    Reachable N (setCellD N s c e) := by
  unfold setCellD
  split
  · next heq => exact Reachable.set h he heq
  · exact h

theorem reachable_applySets {N : ℕ} :
    ∀ (l : List (Coord × ℕ)) (s : SudokuState), Reachable N s →
      (∀ p ∈ l, p.2 < 2 ^ 32) → Reachable N (applySets N s l) := by
  intro l
  induction l with
  | nil => intro s h _; exact h
  | cons p rest ih =>
    intro s h hb
    exact ih _ (reachable_setCellD h (hb p (List.mem_cons_self p rest)))
      (fun q hq => hb q (List.mem_cons_of_mem _ hq))

/-- A 4×4 board (`N = 2`): the whole first row is filled, and the last row has
three of its four cells filled. -/
def exampleState5 : SudokuState :=
  applySets 2 initState
    [((0, 0), 1), ((0, 1), 2), ((0, 2), 3), ((0, 3), 4),
     ((3, 0), 2), ((3, 1), 1), ((3, 2), 4)]

/-- Number of filled cells in row `r` of a board. -/
def rowFillCount (D : ℕ) (b : ℕ → ℕ → ℕ) (r : ℕ) : ℕ :=
  ((Finset.range D).filter (fun c => b r c ≠ 0)).card

/-- Number of filled cells in column `c` of a board. -/
def colFillCount (D : ℕ) (b : ℕ → ℕ → ℕ) (c : ℕ) : ℕ :=
  ((Finset.range D).filter (fun r => b r c ≠ 0)).card

/-- The cell choice described by the specification of the heuristic (stated
from the spec's words, for comparison with the embedded code): the chosen cell
is the first blank, in scan order, of a row or column that is not completely
filled and whose fill count is maximal among all not-completely-filled rows
and columns (ties broken arbitrarily). -/
def HeuristicChoiceSpec (D : ℕ) (b : ℕ → ℕ → ℕ) (q : Coord) : Prop :=
  (∃ r ∈ Finset.range D, rowFillCount D b r < D ∧
    (∀ i ∈ Finset.range D, rowFillCount D b i < D →
      rowFillCount D b i ≤ rowFillCount D b r) ∧
    (∀ i ∈ Finset.range D, colFillCount D b i < D →
      colFillCount D b i ≤ rowFillCount D b r) ∧
    q.1 = r ∧ q.2 ∈ Finset.range D ∧ b r q.2 = 0 ∧
    ∀ k ∈ Finset.range q.2, b r k ≠ 0) ∨
  (∃ c ∈ Finset.range D, colFillCount D b c < D ∧
    (∀ i ∈ Finset.range D, colFillCount D b i < D →
      colFillCount D b i ≤ colFillCount D b c) ∧
    (∀ i ∈ Finset.range D, rowFillCount D b i < D →
      rowFillCount D b i ≤ colFillCount D b c) ∧
    q.2 = c ∧ q.1 ∈ Finset.range D ∧ b q.1 c = 0 ∧
    ∀ k ∈ Finset.range q.1, b k c ≠ 0)

/-- **C5.** Refuted: on the reachable 4×4 board `exampleState5` (first row
completely filled, last row three-quarters filled, middle rows empty) the
`guess_next` strategy of `solve_heuristic` chooses cell `(1, 0)` — the first
blank reached by scanning onward from the *completely filled* row 0, which
`max_bounded` wrongly selects because it seeds its running maximum with the
first count without checking it against the cap.  The specified choice would
be the first blank of a maximally filled incomplete line, here `(3, 3)` in
row 3; the empty row 1 containing `(1, 0)` is not maximal, so the chosen cell
satisfies neither clause of the specified strategy. -/
theorem heuristic_choice_mismatch :
    Reachable 2 exampleState5 ∧
      guessNext 2 exampleState5 = .ok (some (1, 0)) ∧
      ¬ HeuristicChoiceSpec (2 * 2) exampleState5.board (1, 0) ∧
      HeuristicChoiceSpec (2 * 2) exampleState5.board (3, 3) := by
  refine ⟨?_, rfl, ?_, ?_⟩
  · refine reachable_applySets _ _ Reachable.init ?_
    intro p hp
    fin_cases hp <;> norm_num
  · unfold HeuristicChoiceSpec
    decide
  · unfold HeuristicChoiceSpec
    decide

/-! ### Claim C1: the heuristic solver is unsound under counter wrap

`clear()` zeroes the conflict tables and the board but leaves the cached
`unsigned int` counters untouched, so every `set_cell((2,0),1); clear()`
round trip permanently adds one to `rows.counts[2]`, `cols.counts[0]` and
`blocks.counts[2]` (and three to `entry_counts[0]`).  After `2^32 - 1` round
trips the counters sit at `2^32 - 1`; filling rows 2 and 3 of the `4 × 4`
board then wraps `rows.counts[2]` to `3` and `cols.counts[0]` to `1`, while
the fully blank rows 0 and 1 keep count `0`.  `promising_index` now selects
the *full* row 2 (wrapped count `3 < 4`), the row-major scan from `(2,0)`
finds no blank, `guess_next` answers `nullopt`, and `solve_heuristic` reports
the board solved — with eight blank cells.  All arithmetic is defined
behaviour (unsigned wrap-around). -/

/-- The state after `m` rounds of `set_cell((2,0), 1); clear()` from a fresh
board (for `m < 2^32`): blank board, all-false tables, drifted counters. -/
def drifted (m : ℕ) : SudokuState :=
  { board := fun _ _ => 0
    conflicts :=
      { rows := { table := fun _ _ => false
                  counts := fun i => if i = 2 then m else 0 }
        cols := { table := fun _ _ => false
                  counts := fun i => if i = 0 then m else 0 }
        blocks := { table := fun _ _ => false
                    counts := fun i => if i = 2 then m else 0 }
        entryCounts := fun v => if v = 0 then (3 * m) % 2 ^ 32 else 0 } }

/-- One `set_cell((2,0), 1); clear()` round trip. -/
def heuristicCycle (s : SudokuState) : SudokuState :=
  clearAll (setCellD 2 s (2, 0) 1)

theorem drifted_zero : drifted 0 = initState := by
  unfold drifted initState
  simp [funext_iff]

theorem heuristicCycle_drifted {m : ℕ} (hm : m + 1 < 2 ^ 32) :
    heuristicCycle (drifted m) = drifted (m + 1) := by
  norm_num at hm
  have hidx : entryIndex 1 = 0 := rfl
  have hconf : (setCellD 2 (drifted m) (2, 0) 1).conflicts
      = setConflictCore 2 (drifted m).conflicts (2, 0) 1 true := rfl
  have hrows : (setCellD 2 (drifted m) (2, 0) 1).conflicts.rows.counts
      = fun i => if i = 2 then m + 1 else 0 := by
    rw [hconf, setConflictCore_rows_counts, if_pos (by simp [drifted])]
    funext i
    by_cases hi : i = 2
    · subst hi
      simp [drifted, Nat.mod_eq_of_lt hm]
    · simp [drifted, hi]
  have hcols : (setCellD 2 (drifted m) (2, 0) 1).conflicts.cols.counts
      = fun i => if i = 0 then m + 1 else 0 := by
    rw [hconf, setConflictCore_cols_counts, if_pos (by simp [drifted])]
    funext i
    by_cases hi : i = 0
    · subst hi
      simp [drifted, Nat.mod_eq_of_lt hm]
    · simp [drifted, hi]
  have hblk : blockIndexOf 2 (2, 0) = 2 := rfl
  have hblocks : (setCellD 2 (drifted m) (2, 0) 1).conflicts.blocks.counts
      = fun i => if i = 2 then m + 1 else 0 := by
    rw [hconf, setConflictCore_blocks_counts, if_pos (by simp [drifted])]
    funext i
    rw [hblk]
    by_cases hi : i = 2
    · subst hi
      simp [drifted, Nat.mod_eq_of_lt hm]
    · simp [drifted, hi]
  have hentry : (setCellD 2 (drifted m) (2, 0) 1).conflicts.entryCounts
      = fun v => if v = 0 then (3 * (m + 1)) % 2 ^ 32 else 0 := by
    rw [hconf]
    show (setSourceCore (setSourceCore (setSourceCore (drifted m).conflicts
        .rows 2 0 true) .cols 0 0 true) .blocks 2 0 true).entryCounts
      = fun v => if v = 0 then (3 * (m + 1)) % 2 ^ 32 else 0
    have f1 : ((drifted m).conflicts.src .rows).table 2 0 = false := rfl
    have f2 : ((setSourceCore (drifted m).conflicts .rows 2 0 true).src
        .cols).table 0 0 = false := rfl
    have f3 : ((setSourceCore (setSourceCore (drifted m).conflicts .rows 2 0
        true) .cols 0 0 true).src .blocks).table 2 0 = false := rfl
    rw [setSourceCore_entryCounts, if_pos (by rw [f3]; simp)]
    rw [setSourceCore_entryCounts, if_pos (by rw [f2]; simp)]
    rw [setSourceCore_entryCounts, if_pos (by rw [f1]; simp)]
    funext v
    by_cases hv : v = 0
    · subst hv
      simp only [if_pos rfl, if_true]
      have hbase : (drifted m).conflicts.entryCounts 0 = (3 * m) % 2 ^ 32 := by
        simp [drifted]
      rw [hbase]
      simp only [show (2 : ℕ) ^ 32 = 4294967296 from by norm_num]
      omega
    · simp [drifted, hv]
  show clearAll (setCellD 2 (drifted m) (2, 0) 1) = drifted (m + 1)
  unfold clearAll
  rw [hrows, hcols, hblocks, hentry]
  rfl

/-- Every drifted state below the wrap bound is reachable through the public
operations (`m` rounds of `set_cell((2,0), 1); clear()`). -/
theorem reachable_drifted : ∀ m, m < 2 ^ 32 → Reachable 2 (drifted m) := by
  intro m
  induction m with
  | zero =>
    intro _
    rw [drifted_zero]
    exact Reachable.init
  | succ k ih =>
    intro hk
    have hr := ih (by omega)
    have hcyc : Reachable 2 (heuristicCycle (drifted k)) :=
      Reachable.wipe (reachable_setCellD hr (by norm_num))
    rwa [heuristicCycle_drifted hk] at hcyc

/-- The counterexample state for C1: `2^32 - 1` set/clear round trips have
wrapped the counters, then rows 2 and 3 are legally filled.  The stored row
counts are `[0, 0, 3, 4]` and the column counts `[1, 2, 2, 2]`, while rows 0
and 1 are entirely blank. -/
def wrapState : SudokuState :=
  applySets 2 (drifted (2 ^ 32 - 1))
    [((2, 0), 1), ((2, 1), 2), ((2, 2), 3), ((2, 3), 4),
     ((3, 0), 3), ((3, 1), 4), ((3, 2), 1), ((3, 3), 2)]

theorem wrapState_reachable : Reachable 2 wrapState :=
  reachable_applySets _ _ (reachable_drifted (2 ^ 32 - 1) (by norm_num))
    (by intro p hp; fin_cases hp <;> norm_num)

/-- **C1.** Refuted for `solve_heuristic`: on the reachable 4×4 board
`wrapState` — rows 2 and 3 full, rows 0 and 1 blank, counters wrapped below
the true bit counts by `2^32 - 1` `set_cell; clear()` round trips (defined
unsigned behaviour) — `promising_index` selects the full row 2 (wrapped
cached count `3 < 4`), the row-major scan from `(2,0)` exhausts without
finding a blank, `guess_next` answers `nullopt`, and `solve_heuristic`
returns `solved = true` on a board with eight blank cells, contradicting the
claim's "every cell of the board is non-blank". -/
theorem solve_heuristic_unsound :
    Reachable 2 wrapState ∧
      runSolve 2 Variant.heuristic wrapState = .ok (true, 0, wrapState) ∧
      wrapState.board 0 0 = 0 ∧ ¬ NoBlanks 2 wrapState.board := by
  refine ⟨wrapState_reachable, rfl, rfl, fun h => ?_⟩
  exact h 0 0 (by norm_num) (by norm_num) rfl

end Sudoku

/-! ### The ordinal wrapping sequence iterator (claim C9)

Shallow embedding of `OrdinalWrappingSequenceIter` from
`ordinal_wrapping_sequence.h`.  The grid is a `rows × cols` matrix given by an
entry function; `Matrix<T>::operator[](Index)` checks `row < m_rows` and
`col < m_cols` and throws `MatrixIndexError` otherwise, modelled by
`Except.error`.  Note that `advance` wraps `pos.first` modulo `cols` and
`pos.second` modulo `rows` although the matrix access uses `.first` as the row
index. -/

/-- Iterator state: direction (0 = N, 1 = NE, …, 7 = NW), current center,
current position, accumulated sequence, and whether `m_grid_ref` is still
non-null. -/
structure OwsState (α : Type) where
  dir : ℕ
  center : ℕ × ℕ
  pos : ℕ × ℕ
  seq : List α
  live : Bool

/-- `compute_offset`. -/
def offsetOf : ℕ → ℤ × ℤ
  | 0 => (-1, 0)
  | 1 => (-1, 1)
  | 2 => (0, 1)
  | 3 => (1, 1)
  | 4 => (1, 0)
  | 5 => (1, -1)
  | 6 => (0, -1)
  | _ => (-1, -1)

/-- `details::positive_mod`. -/
def positiveMod (value base : ℤ) : ℤ := (value + base) % base

/-- Bounds-checked matrix read (`Matrix<T>::operator[](Index)`). -/
def gridRead {α : Type} (rows cols : ℕ) (g : ℕ → ℕ → α) (p : ℕ × ℕ) :
    Except Unit α :=
  if p.1 < rows ∧ p.2 < cols then .ok (g p.1 p.2) else .error ()

/-- `advance()`: `.first` wrapped modulo `cols`, `.second` modulo `rows`. -/
def owsAdvance {α : Type} (rows cols : ℕ) (s : OwsState α) : OwsState α :=
  { s with pos :=
      ((positiveMod ((s.pos.1 : ℤ) + (offsetOf s.dir).1) (cols : ℤ)).toNat,
       (positiveMod ((s.pos.2 : ℤ) + (offsetOf s.dir).2) (rows : ℤ)).toNat) }

/-- `change_dir()` together with `advance_center()`. -/
def owsChangeDir {α : Type} (rows cols : ℕ) (s : OwsState α) : OwsState α :=
  if s.dir = 7 then
    let cf0 := s.center.1 + 1
    let cf := if cf0 = cols then 0 else cf0
    let cs := if cf0 = cols then s.center.2 + 1 else s.center.2
    { dir := 0, center := (cf, cs), pos := (cf, cs), seq := s.seq,
      live := if cs = rows then false else s.live }
  else { s with dir := s.dir + 1 }

/-- `operator++`. -/
def owsNext {α : Type} (rows cols : ℕ) (g : ℕ → ℕ → α) (s : OwsState α) :
    Except Unit (OwsState α) :=
  let s₁ := owsAdvance rows cols s
  if s₁.pos = s₁.center then
    match gridRead rows cols g s₁.pos with
    | .error u => .error u
    | .ok v =>
      let s₃ := owsChangeDir rows cols { s₁ with seq := [v] }
      if s₃.live then
        let s₄ := owsAdvance rows cols s₃
        match gridRead rows cols g s₄.pos with
        | .error u => .error u
        | .ok w => .ok { s₄ with seq := s₄.seq ++ [w] }
      else .ok s₃
  else
    match gridRead rows cols g s₁.pos with
    | .error u => .error u
    | .ok w => .ok { s₁ with seq := s₁.seq ++ [w] }

/-- The begin iterator (the converting constructor). -/
def owsBegin {α : Type} (rows cols : ℕ) (g : ℕ → ℕ → α) :
    Except Unit (OwsState α) :=
  match gridRead rows cols g (0, 0) with
  | .error u => .error u
  | .ok v => .ok ⟨0, (0, 0), (0, 0), [v], true⟩

/-- The values observed by iterating from a state until the iterator compares
equal to the end sentinel (`m_grid_ref == nullptr`), with fuel. -/
def owsTrace {α : Type} (rows cols : ℕ) (g : ℕ → ℕ → α) :
    ℕ → OwsState α → Except Unit (List (List α))
  | 0, _ => .error ()
  | fuel + 1, s =>
    if s.live then
      match owsNext rows cols g s with
      | .error u => .error u
      | .ok s' =>
        match owsTrace rows cols g fuel s' with
        | .error u => .error u
        | .ok rest => .ok (s.seq :: rest)
    else .ok []

/-- All sequences emitted by a full begin-to-end iteration. -/
def owsEmissions {α : Type} (rows cols : ℕ) (g : ℕ → ℕ → α) (fuel : ℕ) :
    Except Unit (List (List α)) :=
  match owsBegin rows cols g with
  | .error u => .error u
  | .ok s => owsTrace rows cols g fuel s

/-- **C9.** Refuted: on the 2×2 grid with entries 1, 2, 3, 4 the iterator
emits 33 sequences, not R·C·8·max(R,C) = 64 as claimed, and only one of them
(the very first) has length 1, not one per (center, direction) pair: after a
full rotation the increment operator advances again before pushing, so every
direction after the first resumes at length 2.  Moreover on a non-square 2×3
grid the iteration throws `MatrixIndexError` (`advance` wraps the row
coordinate modulo the column count), so the claimed enumeration does not even
complete for general R × C matrices. -/
theorem ordinal_iter_count_mismatch :
    (owsEmissions 2 2 (fun i j => 2 * i + j + 1) 100).map
        (fun tr => (tr.length, (tr.filter (fun sq => sq.length = 1)).length))
      = .ok (33, 1) ∧
    2 * 2 * 8 * 2 = 64 ∧
    owsEmissions 2 3 (fun i j => 3 * i + j + 1) 1000 = .error () :=
  ⟨rfl, rfl, rfl⟩

/-! ### The graph walker (claims C2 and C6)

Shallow embedding of `GraphWalker` from `graph_walker.h`.  A graph is a node
count together with the (ordered) neighbor lists returned by
`graph[i].neighbors()`; weights are the non-negative `Weight` instantiation.
`m_shortest_paths[i]` is `Option (weight × parent)`; dereferencing an empty
`std::optional` (undefined behaviour) is modelled by `Except.error`. -/

/-- A directed graph in adjacency-list form. -/
structure DiGraph where
  size : ℕ
  adj : ℕ → List (ℕ × ℕ)

/-- The walker's working state: `m_visited` and `m_shortest_paths`. -/
structure WalkerState where
  visited : ℕ → Bool
  sp : ℕ → Option (ℕ × ℕ)

/-- Overwrite one entry of `m_shortest_paths`. -/
def setSp (s : WalkerState) (i : ℕ) (v : ℕ × ℕ) : WalkerState :=
  { s with sp := fun j => if j = i then some v else s.sp j }

/-- The neighbor loop of `find_path_bfs`: relax each unvisited neighbor and
collect the queue pushes (every unvisited neighbor is pushed, relaxed or
not). -/
def bfsRelax (s : WalkerState) (cur : ℕ) :
    List (ℕ × ℕ) → Except Unit (WalkerState × List ℕ)
  | [] => .ok (s, [])
  | (nb, w) :: rest =>
    if s.visited nb = true then bfsRelax s cur rest
    else
      match s.sp cur with
      | none => .error ()
      | some cp =>
        let nw := cp.1 + w
        let s' :=
          match s.sp nb with
          | none => setSp s nb (nw, cur)
          | some p => if nw < p.1 then setSp s nb (nw, cur) else s
        match bfsRelax s' cur rest with
        | .error u => .error u
        | .ok (s'', pushed) => .ok (s'', nb :: pushed)

/-- The FIFO loop of `find_path_bfs` (queue kept as a list, front first). -/
def bfsLoop (g : DiGraph) : ℕ → WalkerState → List ℕ → Except Unit WalkerState
  | 0, _, _ => .error ()
  | _ + 1, s, [] => .ok s
  | fuel + 1, s, cur :: rest =>
    let s₁ := { s with visited := fun i => if i = cur then true else s.visited i }
    match bfsRelax s₁ cur (g.adj cur) with
    | .error u => .error u
    | .ok (s₂, pushed) => bfsLoop g fuel s₂ (rest ++ pushed)

/-- The retrace loop of `reconstruct_shortest_path`: follow parent indices
until a node that is its own parent, collecting the path front-first (the
source pushes back and reverses; the result is the same list). -/
def retraceGo (s : WalkerState) : ℕ → ℕ → List ℕ → Except Unit (List ℕ)
  | 0, _, _ => .error ()
  | fuel + 1, idx, acc =>
    match s.sp idx with
    | none => .error ()
    | some p =>
      if idx = p.2 then .ok acc
      else retraceGo s fuel p.2 (p.2 :: acc)

/-- `GraphWalker::find_path_bfs` followed by `reconstruct_shortest_path`;
the result is `(path, total weight)`, with the empty path on failure. -/
def findPathBfs (g : DiGraph) (fuel : ℕ) (start goal : ℕ) :
    Except Unit (List ℕ × ℕ) :=
  let s0 : WalkerState :=
    ⟨fun _ => false, fun i => if i = start then some (0, start) else none⟩
  match bfsLoop g fuel s0 [start] with
  | .error u => .error u
  | .ok s =>
    match s.sp goal with
    | none => .ok ([], 0)
    | some gp =>
      match retraceGo s fuel goal [goal] with
      | .error u => .error u
      | .ok path => .ok (path, gp.1)

/-- `a` has an edge to `b` in `g`. -/
def HasEdge (g : DiGraph) (a b : ℕ) : Prop := ∃ w, (b, w) ∈ g.adj a

/-- `p` is a path from `s` to `t` along edges of `g` (node list, so its edge
count is its length minus one). -/
def IsPath (g : DiGraph) (s t : ℕ) : List ℕ → Prop
  | [] => False
  | [a] => a = s ∧ a = t
  | a :: b :: rest => a = s ∧ HasEdge g a b ∧ IsPath g b t (b :: rest)

/-- Three nodes; a direct edge `0 → 2` of weight 100 and a two-hop route
`0 → 1 → 2` of total weight 2. -/
def bfsCexGraph : DiGraph :=
  ⟨3, fun i => if i = 0 then [(1, 1), (2, 100)] else
    if i = 1 then [(2, 1)] else []⟩

/-- **C6.** Refuted: `find_path_bfs` relaxes by *weight* (`new_weight <
recorded weight`), not by hop count, so on `bfsCexGraph` it returns the
two-edge path `[0, 1, 2]` (weight 2) although the one-edge path `[0, 2]`
reaches the goal; the claimed minimum-edge-count property fails on weighted
graphs (it holds only when all edge weights coincide). -/
theorem bfs_not_hop_minimal :
    findPathBfs bfsCexGraph 20 0 2 = .ok ([0, 1, 2], 2) ∧
      IsPath bfsCexGraph 0 2 [0, 2] ∧
      ([0, 2] : List ℕ).length < ([0, 1, 2] : List ℕ).length := by
  refine ⟨rfl, ?_, by norm_num⟩
  exact ⟨rfl, ⟨100, by decide⟩, rfl, rfl⟩

/-- `std::not_fn` on a binary boolean predicate. -/
def notFn {α : Type} (f : α → α → Bool) (a b : α) : Bool := !(f a b)

/-- The `compare_paths` lambda of `find_path_dijkstra`: a node with no
recorded path is treated as infinitely far. -/
def comparePaths (sp : ℕ → Option (ℕ × ℕ)) (lhs rhs : ℕ) : Bool :=
  match sp lhs with
  | none => false
  | some lp =>
    match sp rhs with
    | none => true
    | some rp => decide (lp.1 < rp.1)

/-- The shortest-path map right after `find_path_dijkstra`'s initialisation:
`init` clears every entry and then `m_shortest_paths[start] = {0, start}`. -/
def dijkstraInitSp (start : ℕ) : ℕ → Option (ℕ × ℕ) :=
  fun i => if i = start then some (0, start) else none

/-- **C2.** Unsupportable as stated: `find_path_dijkstra` hands
`std::not_fn(compare_paths)` to `std::make_heap`/`std::pop_heap`, but the
negation of a strict weak ordering is not a strict weak ordering (the correct
min-heap inversion transposes the arguments instead).  On the very state the
function builds before its first `make_heap` call — here with `start = 0`, on
any graph with at least three nodes — the comparator declares the two
path-less nodes 1 and 2 each strictly less than the other, and node 1
strictly less than itself, violating the asymmetry and irreflexivity the
heap operations require; the C++ standard therefore assigns the heap calls no
behaviour at all, so the code does not guarantee the claimed optimality
(observed correct answers are an artifact of the particular library
implementation). -/
theorem dijkstra_comparator_not_strict_weak_order :
    notFn (comparePaths (dijkstraInitSp 0)) 1 2 = true ∧
      notFn (comparePaths (dijkstraInitSp 0)) 2 1 = true ∧
      notFn (comparePaths (dijkstraInitSp 0)) 1 1 = true :=
  ⟨rfl, rfl, rfl⟩

end Eece2560
